import Mathlib

/-!
# In-place radix-2 FFT (`fourier`) of `implementation_1.c`

A shallow embedding of `swap` and `fourier` from
`src/c-functions/fft_implementations/implementation_1.c`.

* The buffer `double* data` is a `List R`; every access `data[p]` is checked and an
  access outside the list ends the run with `FftError.outOfRange`.
* `double` is read as an arbitrary type `R` carrying the arithmetic operations the code
  uses (`+`, `-`, `*`, `/`, unary minus, the literals and the conversion of `mmax`),
  together with the two library values `sin` and `M_PI`; no law of arithmetic is built
  into the embedding. The theorems about exact arithmetic take `R` to be a field, those
  about exact real arithmetic take `R := ℝ`, `sin := Real.sin`, `pi := Real.pi`; the
  type `Ieee` instantiates `R` with the IEEE 754 special values (infinities and NaN)
  present.
* `unsigned long` is `Nat` with an explicit reduction modulo `2 ^ 64` after each
  operation that can overflow.
* Loops recurse on a fuel counter; a loop that has not finished when its fuel is used
  up ends the run with `FftError.outOfFuel`.
* The file-level global `intermediate_value` is a field of the explicit state.
-/

namespace Fft

/-- The two ways a run of the embedding can fail to return a buffer. -/
inductive FftError where
  | outOfRange
  | outOfFuel
  deriving DecidableEq, Repr

/-- The memory `fourier` works on: the caller's buffer and the global
`double intermediate_value`. -/
structure FftState (R : Type) where
  data : List R
  intermediate_value : R

/-- Reduction of an `unsigned long` result to 64 bits. -/
def wrap (x : Nat) : Nat := x % 2 ^ 64

/-- The `unsigned long` value of `x - 1` (used for the indices `i-1`, `j-1`). -/
def pred64 (x : Nat) : Nat := wrap (x + (2 ^ 64 - 1))

/-- A checked read `data[p]`. -/
def readAt {R : Type} (d : List R) (p : Nat) : Except FftError R :=
  match d[p]? with
  | some v => .ok v
  | none => .error .outOfRange

/-- A checked write `data[p] = v`. -/
def writeAt {R : Type} (d : List R) (p : Nat) (v : R) : Except FftError (List R) :=
  if p < d.length then .ok (d.set p v) else .error .outOfRange

/-- `swap(&data[p1], &data[p2])`:
`intermediate_value = *data2; *data2 = *data1; *data1 = intermediate_value;` -/
def swap {R : Type} (s : FftState R) (p1 p2 : Nat) : Except FftError (FftState R) := do
  let v2 ← readAt s.data p2
  let s1 : FftState R := { s with intermediate_value := v2 }
  let v1 ← readAt s1.data p1
  let d2 ← writeAt s1.data p2 v1
  let d3 ← writeAt d2 p1 s1.intermediate_value
  pure { s1 with data := d3 }

/-- `while (m>=2 && j>m) { j -= m; m >>= 1; }`, returning the final `(m, j)`. -/
def maskLoop : Nat → Nat → Nat → Except FftError (Nat × Nat)
  | 0, _, _ => .error .outOfFuel
  | fuel + 1, m, j =>
    if 2 ≤ m ∧ m < j then maskLoop fuel (m >>> 1) (j - m) else .ok (m, j)

/-- The guarded exchange `if (j>i) { swap(&data[j-1], &data[i-1]); swap(&data[j], &data[i]); }`
of the reindexing loop. -/
def swapPair {R : Type} (s : FftState R) (i j : Nat) : Except FftError (FftState R) :=
  if i < j then do
    let t ← swap s (pred64 j) (pred64 i)
    swap t j i
  else pure s

/-- The reverse-binary reindexing loop
`for (i=1; i<n; i+=2) { if (j>i) { swap; swap }  m = nn; while ...; j += m; }`
from the loop head with the current `i`, `j`. -/
def scanLoop {R : Type} (nn n : Nat) :
    Nat → Nat → Nat → FftState R → Except FftError (FftState R)
  | 0, _, _, _ => .error .outOfFuel
  | fuel + 1, i, j, s =>
    if i < n then do
      let s1 ← swapPair s i j
      let (m, j1) ← maskLoop 64 nn j
      scanLoop nn n fuel (wrap (i + 2)) (wrap (j1 + m)) s1
    else .ok s

/-- The body of the innermost loop: one butterfly on `data[i-1], data[i]` and
`data[j-1], data[j]` with `j = i + mmax`. -/
def butterfly {R : Type} [Add R] [Sub R] [Mul R] (mmax : Nat) (wr wi : R) (i : Nat)
    (d : List R) : Except FftError (List R) := do
  let j := wrap (i + mmax)
  let tempr := wr * (← readAt d (pred64 j)) - wi * (← readAt d j)
  let tempi := wr * (← readAt d j) + wi * (← readAt d (pred64 j))
  let d ← writeAt d (pred64 j) ((← readAt d (pred64 i)) - tempr)
  let d ← writeAt d j ((← readAt d i) - tempi)
  let d ← writeAt d (pred64 i) ((← readAt d (pred64 i)) + tempr)
  let d ← writeAt d i ((← readAt d i) + tempi)
  pure d

/-- `for (i=m; i <= n; i += istep) { butterfly }` from the loop head with the
current `i`. -/
def pairLoop {R : Type} [Add R] [Sub R] [Mul R] (n mmax istep : Nat) (wr wi : R) :
    Nat → Nat → List R → Except FftError (List R)
  | 0, _, _ => .error .outOfFuel
  | fuel + 1, i, d =>
    if i ≤ n then do
      let d1 ← butterfly mmax wr wi i d
      pairLoop n mmax istep wr wi fuel (wrap (i + istep)) d1
    else .ok d

/-- `for (m=1; m < mmax; m += 2) { pair loop; wtemp=wr; wr += ...; wi += ...; }`
from the loop head with the current `m`, `wr`, `wi`. -/
def twiddleLoop {R : Type} [Add R] [Sub R] [Mul R] (n mmax istep : Nat) (wpr wpi : R) :
    Nat → Nat → R → R → List R → Except FftError (List R)
  | 0, _, _, _, _ => .error .outOfFuel
  | fuel + 1, m, wr, wi, d =>
    if m < mmax then do
      let d1 ← pairLoop n mmax istep wr wi (n + 1) m d
      let wtemp := wr
      let wr1 := wr + (wr * wpr - wi * wpi)
      let wi1 := wi + (wi * wpr + wtemp * wpi)
      twiddleLoop n mmax istep wpr wpi fuel (wrap (m + 2)) wr1 wi1 d1
    else .ok d

/-- The Danielson-Lanczos section `while (n>mmax) { ... mmax=istep; }` from the loop
head with the current `mmax`. -/
def passLoop {R : Type} [Add R] [Sub R] [Mul R] [Div R] [Neg R] [NatCast R]
    [OfScientific R] [OfNat R 2] (sin : R → R) (pi : R) (n : Nat) :
    Nat → Nat → List R → Except FftError (List R)
  | 0, _, _ => .error .outOfFuel
  | fuel + 1, mmax, d =>
    if mmax < n then do
      let istep := wrap (mmax <<< 1)
      let theta := -(2 * pi / (mmax : R))
      let wtemp := sin (0.5 * theta)
      let wpr := -2.0 * wtemp * wtemp
      let wpi := sin theta
      let d1 ← twiddleLoop n mmax istep wpr wpi (mmax + 1) 1 1.0 0.0 d
      passLoop sin pi n fuel istep d1
    else .ok d

/-- The first stage of `fourier` alone (lines 32-48): `n = nn<<1; j=1;` and the
reverse-binary reindexing loop. -/
def bitReverse {R : Type} (nn : Nat) (s : FftState R) : Except FftError (FftState R) :=
  let n := wrap (nn <<< 1)
  scanLoop nn n (n + 1) 1 1 s

/-- The second stage of `fourier` alone (lines 51-79): `mmax=2;` and the
Danielson-Lanczos loop. The global `intermediate_value` is not mentioned by it. -/
def danielsonLanczos {R : Type} [Add R] [Sub R] [Mul R] [Div R] [Neg R] [NatCast R]
    [OfScientific R] [OfNat R 2] (sin : R → R) (pi : R) (nn : Nat) (s : FftState R) :
    Except FftError (FftState R) := do
  let n := wrap (nn <<< 1)
  let d ← passLoop sin pi n 65 2 s.data
  pure { s with data := d }

/-- `void fourier(double* data, unsigned long nn)`. -/
def fourier {R : Type} [Add R] [Sub R] [Mul R] [Div R] [Neg R] [NatCast R]
    [OfScientific R] [OfNat R 2] (sin : R → R) (pi : R) (nn : Nat) (s : FftState R) :
    Except FftError (FftState R) := do
  let s1 ← bitReverse nn s
  danielsonLanczos sin pi nn s1

/-! ## Definitions used to state the properties -/

/-- Reversal of the `k` low bits of `c`. -/
def rev : Nat → Nat → Nat
  | 0, _ => 0
  | k + 1, c => rev k (c / 2) + (c % 2) * 2 ^ k

/-- The buffer `d` when the scan over the buffer `x` has handled the samples below `a`:
sample `p` holds the input sample `rev k p` when `p` or its partner has been handled,
and is untouched otherwise. -/
def ScanInv {R : Type} (k : Nat) (x : List R) (a : Nat) (d : List R) : Prop :=
  d.length = x.length ∧ ∀ p < 2 ^ k, ∀ c < 2,
    d[2 * p + c]? = x[2 * (if p < a ∨ rev k p < a then rev k p else p) + c]?

/-- The element `data[p]` of a buffer, read as `0` outside it. -/
def val {R : Type} [Zero R] (d : List R) (p : Nat) : R := d.getD p 0

/-- The buffer `e` holds, at the samples `a` and `b`, the butterfly `(a + w b, a - w b)`
of the samples `a` and `b` of the buffer `d`, with `w = wr + i wi`. -/
def IsButterfly {R : Type} [Field R] (wr wi : R) (d e : List R) (a b : Nat) : Prop :=
  val e (2 * a) = val d (2 * a) + (wr * val d (2 * b) - wi * val d (2 * b + 1)) ∧
  val e (2 * a + 1) = val d (2 * a + 1) + (wr * val d (2 * b + 1) + wi * val d (2 * b)) ∧
  val e (2 * b) = val d (2 * a) - (wr * val d (2 * b) - wi * val d (2 * b + 1)) ∧
  val e (2 * b + 1) = val d (2 * a + 1) - (wr * val d (2 * b + 1) + wi * val d (2 * b))

/-- The rotation factor `(wr, wi)` at the head of the loop over `m` after `r` rounds of
`wtemp=wr; wr += wr*wpr - wi*wpi; wi += wi*wpr + wtemp*wpi;` from `wr = 1.0, wi = 0.0`. -/
def twiddle {R : Type} [Field R] (wpr wpi : R) : Nat → R × R
  | 0 => (1, 0)
  | r + 1 =>
    ((twiddle wpr wpi r).1 + ((twiddle wpr wpi r).1 * wpr - (twiddle wpr wpi r).2 * wpi),
     (twiddle wpr wpi r).2 + ((twiddle wpr wpi r).2 * wpr + (twiddle wpr wpi r).1 * wpi))

/-- The value of `wpr` in the pass with the given `mmax`:
`theta = -(2*M_PI/mmax); wtemp = sin(0.5*theta); wpr = -2.0*wtemp*wtemp;`. -/
def passWpr {R : Type} [Field R] (sin : R → R) (pi : R) (mmax : Nat) : R :=
  -2.0 * sin (0.5 * -(2 * pi / (mmax : R))) * sin (0.5 * -(2 * pi / (mmax : R)))

/-- The value of `wpi` in the pass with the given `mmax`: `wpi = sin(theta)`. -/
def passWpi {R : Type} [Field R] (sin : R → R) (pi : R) (mmax : Nat) : R :=
  sin (-(2 * pi / (mmax : R)))

/-- One whole pass: `e` holds the butterflies of `d` for every block `c < C` of `2 * H`
samples and every offset `r < H`, with the rotation factors `w r`. -/
def IsPass {R : Type} [Field R] (w : Nat → R × R) (H C : Nat) (d e : List R) : Prop :=
  ∀ r c, r < H → c < C →
    IsButterfly (w r).1 (w r).2 d e (2 * (c * H) + r) (2 * (c * H) + r + H)

/-- The complex sample `p` of an interleaved buffer: `data[2p] + i data[2p+1]`. -/
def sample (d : List ℝ) (p : Nat) : ℂ := ⟨val d (2 * p), val d (2 * p + 1)⟩

/-- The buffer `y` holds the discrete Fourier transform of the `N` complex samples of the
buffer `x`: for every `j < N`, `y[2j]` and `y[2j+1]` are the real and the imaginary part of
`X[j] = Σ_{n<N} x[n] * exp(-2 π i j n / N)`. -/
def IsDft (N : Nat) (x y : List ℝ) : Prop :=
  ∀ j < N,
    val y (2 * j) =
      (∑ n in Finset.range N, sample x n * Complex.exp (-2 * Real.pi * Complex.I * j * n / N)).re ∧
    val y (2 * j + 1) =
      (∑ n in Finset.range N, sample x n * Complex.exp (-2 * Real.pi * Complex.I * j * n / N)).im

/-- The state of the buffer `d` after the passes with `mmax = 2, 4, ..., 2 ^ s` on the
bit-reversed samples of `x`: block `c` of `2 ^ s` samples holds the transform of the `2 ^ s`
input samples `rev (k - s) c + t * 2 ^ (k - s)`. -/
def PassInv (k : Nat) (x : List ℝ) (s : Nat) (d : List ℝ) : Prop :=
  ∀ c q, c < 2 ^ (k - s) → q < 2 ^ s →
    sample d (c * 2 ^ s + q) =
      ∑ t in Finset.range (2 ^ s), sample x (rev (k - s) c + t * 2 ^ (k - s)) *
        Complex.exp (-(2 * Real.pi * Complex.I / (2 ^ s : Nat))) ^ (q * t)

/-- The buffer `a*x + b*y`, element by element. -/
def lincomb {R : Type} [Field R] (a b : R) (x y : List R) : List R :=
  List.zipWith (fun u v => a * u + b * v) x y

/-- Complex conjugation of an interleaved buffer: every imaginary part (odd index) is
negated. -/
def conjugate {R : Type} [Field R] : List R → List R
  | re :: im :: rest => re :: -im :: conjugate rest
  | rest => rest

/-- The buffer with every element multiplied by `c`. -/
def scale {R : Type} [Field R] (c : R) (d : List R) : List R := d.map (fun v => c * v)

/-- A run that either stops at an access outside the buffer or returns a buffer of `n`
elements (it does not run out of fuel). -/
def RangeOrLen {R : Type} (n : Nat) (r : Except FftError (List R)) : Prop :=
  r = Except.error FftError.outOfRange ∨ ∃ e, r = Except.ok e ∧ e.length = n

/-- The buffer a run returns (or the error it ends with), without the global
`intermediate_value`. -/
def outputBuffer {R : Type} (r : Except FftError (FftState R)) : Except FftError (List R) :=
  match r with
  | .ok s => .ok s.data
  | .error e => .error e

/-- One pass of the Danielson-Lanczos section with the given `mmax`: the body of
`while (n>mmax)` up to, and without, the final `mmax=istep`. -/
def passBody {R : Type} [Add R] [Sub R] [Mul R] [Div R] [Neg R] [NatCast R]
    [OfScientific R] [OfNat R 2] (sin : R → R) (pi : R) (n mmax : Nat) (d : List R) :
    Except FftError (List R) :=
  let istep := wrap (mmax <<< 1)
  let theta := -(2 * pi / (mmax : R))
  let wtemp := sin (0.5 * theta)
  let wpr := -2.0 * wtemp * wtemp
  let wpi := sin theta
  twiddleLoop n mmax istep wpr wpi (mmax + 1) 1 1.0 0.0 d

/-- The Danielson-Lanczos loop of `passLoop`, returning besides the buffer the list of the
values `mmax` had in the passes it executed, in order. -/
def passLoopTrace {R : Type} [Add R] [Sub R] [Mul R] [Div R] [Neg R] [NatCast R]
    [OfScientific R] [OfNat R 2] (sin : R → R) (pi : R) (n : Nat) :
    Nat → Nat → List R → Except FftError (List R × List Nat)
  | 0, _, _ => .error .outOfFuel
  | fuel + 1, mmax, d =>
    if mmax < n then do
      let d1 ← passBody sin pi n mmax d
      let r ← passLoopTrace sin pi n fuel (wrap (mmax <<< 1)) d1
      pure (r.1, mmax :: r.2)
    else .ok (d, [])

/-- The loop over `m` of `twiddleLoop`, returning besides the buffer the list of the pairs
`(wr, wi)` the variables held each time the loop head `m < mmax` was reached, the final
(failing) test included, in order. -/
def twiddleLoopTrace {R : Type} [Add R] [Sub R] [Mul R] (n mmax istep : Nat) (wpr wpi : R) :
    Nat → Nat → R → R → List R → Except FftError (List R × List (R × R))
  | 0, _, _, _, _ => .error .outOfFuel
  | fuel + 1, m, wr, wi, d =>
    if m < mmax then do
      let d1 ← pairLoop n mmax istep wr wi (n + 1) m d
      let wtemp := wr
      let wr1 := wr + (wr * wpr - wi * wpi)
      let wi1 := wi + (wi * wpr + wtemp * wpi)
      let r ← twiddleLoopTrace n mmax istep wpr wpi fuel (wrap (m + 2)) wr1 wi1 d1
      pure (r.1, (wr, wi) :: r.2)
    else .ok (d, [(wr, wi)])

/-- The values of C `double` arithmetic with the IEEE 754 special values present: a finite
value (carried exactly, as a rational: rounding and the sign of zero are not modelled),
`+inf`, `-inf`, or a NaN. -/
inductive Ieee where
  | fin (q : ℚ)
  | posInf
  | negInf
  | nan
  deriving DecidableEq

/-- IEEE 754 negation. -/
def Ieee.neg : Ieee → Ieee
  | .fin q => .fin (-q)
  | .posInf => .negInf
  | .negInf => .posInf
  | .nan => .nan

/-- IEEE 754 addition: a NaN operand gives NaN, `inf + (-inf)` is NaN, and an infinity
absorbs every other operand. -/
def Ieee.add : Ieee → Ieee → Ieee
  | .nan, _ => .nan
  | _, .nan => .nan
  | .fin p, .fin q => .fin (p + q)
  | .posInf, .negInf => .nan
  | .negInf, .posInf => .nan
  | .posInf, _ => .posInf
  | _, .posInf => .posInf
  | .negInf, _ => .negInf
  | _, .negInf => .negInf

/-- The product of the finite value `q` with `+inf` (`negative = false`) or with `-inf`
(`negative = true`): `0 * inf` is NaN, otherwise the infinity whose sign is the product
of the signs. -/
def Ieee.infTimes (negative : Bool) (q : ℚ) : Ieee :=
  if q = 0 then .nan
  else if decide (0 < q) = !negative then .posInf else .negInf

/-- IEEE 754 multiplication. -/
def Ieee.mul : Ieee → Ieee → Ieee
  | .nan, _ => .nan
  | _, .nan => .nan
  | .fin p, .fin q => .fin (p * q)
  | .fin p, .posInf => Ieee.infTimes false p
  | .fin p, .negInf => Ieee.infTimes true p
  | .posInf, .fin q => Ieee.infTimes false q
  | .negInf, .fin q => Ieee.infTimes true q
  | .posInf, .posInf => .posInf
  | .negInf, .negInf => .posInf
  | .posInf, .negInf => .negInf
  | .negInf, .posInf => .negInf

/-- IEEE 754 division (a zero divisor is read as `+0`). -/
def Ieee.div : Ieee → Ieee → Ieee
  | .nan, _ => .nan
  | _, .nan => .nan
  | .fin p, .fin q =>
    if q = 0 then (if p = 0 then .nan else if 0 < p then .posInf else .negInf)
    else .fin (p / q)
  | .fin _, _ => .fin 0
  | .posInf, .fin q => if 0 ≤ q then .posInf else .negInf
  | .negInf, .fin q => if 0 ≤ q then .negInf else .posInf
  | _, _ => .nan

instance : Neg Ieee := ⟨Ieee.neg⟩

instance : Add Ieee := ⟨Ieee.add⟩

instance : Sub Ieee := ⟨fun a b => Ieee.add a (Ieee.neg b)⟩

instance : Mul Ieee := ⟨Ieee.mul⟩

instance : Div Ieee := ⟨Ieee.div⟩

instance : NatCast Ieee := ⟨fun n => .fin n⟩

instance (n : Nat) : OfNat Ieee n := ⟨.fin n⟩

instance : OfScientific Ieee := ⟨fun m s e => .fin (OfScientific.ofScientific m s e)⟩

/-! # Theorems -/

/-! ## Machine arithmetic and checked accesses -/

theorem wrap_eq {x : Nat} (h : x < 2 ^ 64) : wrap x = x := Nat.mod_eq_of_lt h

theorem pred64_eq {x : Nat} (h1 : 1 ≤ x) (h2 : x < 2 ^ 64) : pred64 x = x - 1 := by
  unfold pred64 wrap
  omega

theorem readAt_eq {R : Type} {d : List R} {p : Nat} (h : p < d.length) :
    readAt d p = .ok d[p] := by
  simp [readAt, List.getElem?_eq_getElem h]

theorem writeAt_eq {R : Type} {d : List R} {p : Nat} (v : R) (h : p < d.length) :
    writeAt d p v = .ok (d.set p v) := by
  simp [writeAt, h]

theorem swap_spec {R : Type} (s : FftState R) (p1 p2 : Nat) (h1 : p1 < s.data.length)
    (h2 : p2 < s.data.length) :
    ∃ s', swap s p1 p2 = .ok s' ∧ s'.data.length = s.data.length ∧
      s.data[p2]? = some s'.intermediate_value ∧
      ∀ q, s'.data[q]? =
        if q = p1 then s.data[p2]? else if q = p2 then s.data[p1]? else s.data[q]? := by
  refine ⟨⟨(s.data.set p2 s.data[p1]).set p1 s.data[p2], s.data[p2]⟩, ?_, by simp, by simp, ?_⟩
  · simp [swap, readAt_eq h1, readAt_eq h2, writeAt_eq _ h2, writeAt_eq, h1, bind, Except.bind,
      pure, Except.pure]
  · intro q
    simp only [List.getElem?_set]
    by_cases e1 : q = p1
    · subst e1; simp [h1]
    · by_cases e2 : q = p2
      · subst e2; simp [h2, Ne.symm e1, e1]
      · simp [e1, e2, Ne.symm e1, Ne.symm e2]

/-! ## Bit reversal -/

theorem rev_lt (k c : Nat) : rev k c < 2 ^ k := by
  induction k generalizing c with
  | zero => simp [rev]
  | succ k ih =>
    have h1 := ih (c / 2)
    have h2 : c % 2 < 2 := Nat.mod_lt _ (by decide)
    have h3 : c % 2 * 2 ^ k ≤ 1 * 2 ^ k := Nat.mul_le_mul_right _ (by omega)
    simp only [rev, pow_succ]
    omega

theorem rev_high (k u b : Nat) (hu : u < 2 ^ k) (hb : b < 2) :
    rev (k + 1) (u + b * 2 ^ k) = 2 * rev k u + b := by
  induction k generalizing u with
  | zero =>
    have : u = 0 := by simpa using hu
    subst this
    interval_cases b <;> simp [rev]
  | succ k ih =>
    have e0 : b * 2 ^ (k + 1) = 2 * (b * 2 ^ k) := by ring
    have e1 : (u + b * 2 ^ (k + 1)) / 2 = u / 2 + b * 2 ^ k := by
      rw [e0]; omega
    have e2 : (u + b * 2 ^ (k + 1)) % 2 = u % 2 := by
      rw [e0]; omega
    have hu2 : u / 2 < 2 ^ k := by rw [pow_succ] at hu; omega
    rw [rev, e1, e2, ih _ hu2]
    simp only [rev, pow_succ]
    ring

theorem rev_rev (k c : Nat) (hc : c < 2 ^ k) : rev k (rev k c) = c := by
  induction k generalizing c with
  | zero =>
    simp at hc; simp [rev, hc]
  | succ k ih =>
    have hc2 : c / 2 < 2 ^ k := by rw [pow_succ] at hc; omega
    have hb : c % 2 < 2 := Nat.mod_lt _ (by decide)
    show rev (k + 1) (rev k (c / 2) + c % 2 * 2 ^ k) = c
    rw [rev_high k _ _ (rev_lt k _) hb, ih _ hc2]
    omega

theorem maskLoop_total (fuel m j : Nat) (h : m < 2 ^ fuel) :
    ∃ r, maskLoop (fuel + 1) m j = .ok r := by
  induction fuel generalizing m j with
  | zero =>
    have : m = 0 := by simpa using h
    subst this
    exact ⟨(0, j), by simp [maskLoop]⟩
  | succ f ih =>
    rw [maskLoop]
    split
    · apply ih
      rw [pow_succ] at h
      rw [Nat.shiftRight_eq_div_pow]
      omega
    · exact ⟨_, rfl⟩

theorem maskLoop_rev (k fuel a : Nat) (hf : k < fuel) (ha : a + 1 < 2 ^ k) :
    ∃ m j, maskLoop fuel (2 ^ k) (2 * rev k a + 1) = .ok (m, j) ∧
      j + m = 2 * rev k (a + 1) + 1 := by
  induction k generalizing fuel a with
  | zero => simp at ha
  | succ k ih =>
    obtain ⟨f, rfl⟩ : ∃ f, fuel = f + 1 := ⟨fuel - 1, by omega⟩
    have hpow : 2 ^ (k + 1) = 2 * 2 ^ k := by ring
    have hpos : 0 < 2 ^ k := Nat.two_pow_pos k
    have hr := rev_lt k (a / 2)
    rw [maskLoop]
    rcases Nat.mod_two_eq_zero_or_one a with h0 | h1
    · have e1 : rev (k + 1) a = rev k (a / 2) := by simp [rev, h0]
      have e2 : rev (k + 1) (a + 1) = rev k (a / 2) + 2 ^ k := by
        have : (a + 1) / 2 = a / 2 := by omega
        have : (a + 1) % 2 = 1 := by omega
        simp [rev, *]
      rw [if_neg (by rw [e1, hpow]; omega)]
      exact ⟨_, _, rfl, by rw [e1, e2, hpow]; omega⟩
    · have e1 : rev (k + 1) a = rev k (a / 2) + 2 ^ k := by simp [rev, h1]
      have e2 : rev (k + 1) (a + 1) = rev k (a / 2 + 1) := by
        have : (a + 1) / 2 = a / 2 + 1 := by omega
        have : (a + 1) % 2 = 0 := by omega
        simp [rev, *]
      rw [if_pos (by rw [e1, hpow]; omega)]
      have e3 : 2 ^ (k + 1) >>> 1 = 2 ^ k := by
        rw [Nat.shiftRight_eq_div_pow, hpow]; omega
      have e4 : 2 * rev (k + 1) a + 1 - 2 ^ (k + 1) = 2 * rev k (a / 2) + 1 := by
        rw [e1, hpow]; omega
      rw [e3, e4, e2]
      exact ih f (a / 2) (by omega) (by rw [hpow] at ha; omega)

/-! ## The reindexing loop -/

theorem scanSwap_spec {R : Type} (k : Nat) (x : List R) (hx : x.length = 2 * 2 ^ k)
    (hfit : 2 * 2 ^ k < 2 ^ 64) (a : Nat) (s : FftState R) (ha : a < 2 ^ k)
    (hinv : ScanInv k x a s.data) :
    ∃ s1, swapPair s (2 * a + 1) (2 * rev k a + 1) = Except.ok s1 ∧
      ScanInv k x (a + 1) s1.data ∧
      (s1.intermediate_value = s.intermediate_value ∨
        ∃ q : Nat, x[q]? = some s1.intermediate_value) := by
  have hra := rev_lt k a
  have hrr := rev_rev k a ha
  obtain ⟨hlen, hval⟩ := hinv
  have hne : ∀ p < 2 ^ k, p ≠ rev k a → rev k p ≠ a := by
    intro p hp h1 h2
    apply h1
    rw [← h2, rev_rev k p hp]
  unfold swapPair
  by_cases hlt : a < rev k a
  · rw [if_pos (by omega), pred64_eq (by omega) (by omega), pred64_eq (by omega) (by omega),
      Nat.add_sub_cancel, Nat.add_sub_cancel]
    obtain ⟨t, ht, htlen, _, htval⟩ :=
      swap_spec s (2 * rev k a) (2 * a) (by omega) (by omega)
    obtain ⟨s1, hs1, hs1len, hs1iv, hs1val⟩ :=
      swap_spec t (2 * rev k a + 1) (2 * a + 1) (by omega) (by omega)
    have hcomb : ∀ q, s1.data[q]? =
        if q = 2 * rev k a + 1 then s.data[2 * a + 1]?
        else if q = 2 * a + 1 then s.data[2 * rev k a + 1]?
        else if q = 2 * rev k a then s.data[2 * a]?
        else if q = 2 * a then s.data[2 * rev k a]? else s.data[q]? := by
      intro q
      rw [hs1val, htval, htval, htval]
      split_ifs <;> first | rfl | (exfalso; omega)
    have hA : ∀ c < 2, s.data[2 * a + c]? = x[2 * a + c]? := by
      intro c hc
      rw [hval a ha c hc, if_neg (by omega)]
    have hRA : ∀ c < 2, s.data[2 * rev k a + c]? = x[2 * rev k a + c]? := by
      intro c hc
      rw [hval _ hra c hc, if_neg (by rw [hrr]; omega)]
    refine ⟨s1, ?_, ⟨by omega, ?_⟩, Or.inr ⟨2 * a + 1, ?_⟩⟩
    · simp [ht, hs1, bind, Except.bind]
    · intro p hp c hc
      rw [hcomb]
      by_cases e1 : p = a
      · rw [e1, if_pos (Or.inl (Nat.lt_succ_self a))]
        obtain rfl | rfl : c = 0 ∨ c = 1 := by omega
        · rw [if_neg (by omega), if_neg (by omega), if_neg (by omega), if_pos (by omega)]
          exact hRA 0 (by omega)
        · rw [if_neg (by omega), if_pos (by omega)]
          exact hRA 1 (by omega)
      · by_cases e2 : p = rev k a
        · rw [e2, hrr, if_pos (Or.inr (Nat.lt_succ_self a))]
          obtain rfl | rfl : c = 0 ∨ c = 1 := by omega
          · rw [if_neg (by omega), if_neg (by omega), if_pos (by omega)]
            exact hA 0 (by omega)
          · rw [if_pos (by omega)]
            exact hA 1 (by omega)
        · have h3 := hne p hp e2
          rw [if_neg (by omega), if_neg (by omega), if_neg (by omega), if_neg (by omega),
            hval p hp c hc]
          by_cases e3 : p < a ∨ rev k p < a
          · rw [if_pos e3, if_pos (by omega)]
          · rw [if_neg e3, if_neg (by omega)]
    · rw [← hs1iv, htval, if_neg (by omega), if_neg (by omega)]
      exact (hA 1 (by omega)).symm
  · rw [if_neg (by omega)]
    refine ⟨s, rfl, ⟨hlen, ?_⟩, Or.inl rfl⟩
    intro p hp c hc
    rw [hval p hp c hc]
    by_cases e1 : p = a
    · rw [e1, if_pos (Or.inl (Nat.lt_succ_self a))]
      by_cases e4 : rev k a < a
      · rw [if_pos (Or.inr e4)]
      · rw [if_neg (by omega)]
        have h5 : rev k a = a := by omega
        rw [h5]
    · by_cases e2 : p = rev k a
      · rw [e2, hrr, if_pos (by omega), if_pos (by omega)]
      · have h3 := hne p hp e2
        by_cases e3 : p < a ∨ rev k p < a
        · rw [if_pos e3, if_pos (by omega)]
        · rw [if_neg e3, if_neg (by omega)]

theorem rev_zero (k : Nat) : rev k 0 = 0 := by
  induction k with
  | zero => rfl
  | succ k ih => simp [rev, ih]

theorem k_lt_of_fit (k : Nat) (hfit : 2 * 2 ^ k < 2 ^ 64) : k < 63 := by
  by_contra h
  have h1 : 2 ^ 63 ≤ 2 ^ k := Nat.pow_le_pow_right (by decide) (by omega)
  omega

theorem scanLoop_spec {R : Type} (k : Nat) (x : List R) (hx : x.length = 2 * 2 ^ k)
    (hfit : 2 * 2 ^ k < 2 ^ 64) (fuel a j : Nat) (s : FftState R) (ha : a ≤ 2 ^ k)
    (hfuel : 2 ^ k - a < fuel) (hj : a < 2 ^ k → j = 2 * rev k a + 1)
    (hinv : ScanInv k x a s.data) :
    ∃ s1, scanLoop (2 ^ k) (2 * 2 ^ k) fuel (2 * a + 1) j s = Except.ok s1 ∧
      ScanInv k x (2 ^ k) s1.data ∧
      (s1.intermediate_value = s.intermediate_value ∨
        ∃ q : Nat, x[q]? = some s1.intermediate_value) := by
  induction fuel generalizing a j s with
  | zero => omega
  | succ f ih =>
    rw [scanLoop]
    by_cases haN : a < 2 ^ k
    · rw [if_pos (by omega), hj haN]
      obtain ⟨s1, hs1, hinv1, hiv1⟩ := scanSwap_spec k x hx hfit a s haN hinv
      have hk := k_lt_of_fit k hfit
      have hra := rev_lt k (a + 1)
      have hstep : ∃ m j1, maskLoop 64 (2 ^ k) (2 * rev k a + 1) = Except.ok (m, j1) ∧
          (a + 1 < 2 ^ k → wrap (j1 + m) = 2 * rev k (a + 1) + 1) := by
        by_cases h1 : a + 1 < 2 ^ k
        · obtain ⟨m, j1, h2, h3⟩ := maskLoop_rev k 64 a (by omega) h1
          exact ⟨m, j1, h2, fun _ => by rw [h3, wrap_eq (by omega)]⟩
        · obtain ⟨⟨m, j1⟩, h2⟩ := maskLoop_total 63 (2 ^ k) (2 * rev k a + 1)
            (Nat.pow_lt_pow_right (by decide) hk)
          exact ⟨m, j1, h2, fun h => absurd h h1⟩
      obtain ⟨m, j1, hm, hj1⟩ := hstep
      obtain ⟨s2, hs2, hinv2, hiv2⟩ := ih (a + 1) (wrap (j1 + m)) s1 (by omega) (by omega)
        hj1 hinv1
      refine ⟨s2, ?_, hinv2, ?_⟩
      · have e : wrap (2 * a + 1 + 2) = 2 * (a + 1) + 1 := by
          rw [wrap_eq (by omega)]; ring
        rw [hs1]
        simp only [hm, e, bind, Except.bind]
        exact hs2
      · rcases hiv2 with h | h
        · rw [h]; exact hiv1
        · exact Or.inr h
    · rw [if_neg (by omega)]
      have : a = 2 ^ k := by omega
      subst this
      exact ⟨s, rfl, hinv, Or.inl rfl⟩

theorem scanInv_zero {R : Type} (k : Nat) (x : List R) : ScanInv k x 0 x := by
  refine ⟨rfl, ?_⟩
  intro p _ c _
  rw [if_neg (by omega)]

/-- The reindexing stage on a buffer of `2 * 2 ^ k` elements returns the buffer whose
sample `p` is the input sample `rev k p`. -/
theorem bitReverse_spec {R : Type} (k : Nat) (s : FftState R)
    (hlen : s.data.length = 2 * 2 ^ k) (hfit : 2 * 2 ^ k < 2 ^ 64) :
    ∃ s1, bitReverse (2 ^ k) s = Except.ok s1 ∧ s1.data.length = 2 * 2 ^ k ∧
      (∀ p < 2 ^ k, ∀ c < 2, s1.data[2 * p + c]? = s.data[2 * rev k p + c]?) ∧
      (s1.intermediate_value = s.intermediate_value ∨
        ∃ q : Nat, s.data[q]? = some s1.intermediate_value) := by
  have hn : wrap (2 ^ k <<< 1) = 2 * 2 ^ k := by
    rw [Nat.shiftLeft_eq, wrap_eq (by omega)]; ring
  have h0 := rev_zero k
  obtain ⟨s1, hs1, ⟨hl, hv⟩, hiv⟩ := scanLoop_spec k s.data hlen hfit (2 * 2 ^ k + 1) 0 1 s
    (by omega) (by omega) (fun _ => by rw [h0]) (scanInv_zero k s.data)
  refine ⟨s1, ?_, by omega, ?_, hiv⟩
  · unfold bitReverse
    simp only [hn]
    exact hs1
  · intro p hp c hc
    rw [hv p hp c hc, if_pos (Or.inl hp)]

/-! ## The butterfly stage -/

theorem readAt_val {R : Type} [Zero R] {d : List R} {p : Nat} (h : p < d.length) :
    readAt d p = .ok (val d p) := by
  simp [readAt, val, List.getElem?_eq_getElem h, List.getD_eq_getElem?_getD]

theorem val_set {R : Type} [Zero R] (d : List R) (p q : Nat) (v : R) (h : p < d.length) :
    val (d.set p v) q = if q = p then v else val d q := by
  unfold val
  rw [List.getD_eq_getElem?_getD, List.getD_eq_getElem?_getD, List.getElem?_set]
  by_cases e : q = p
  · subst e; simp [h]
  · simp [e, Ne.symm e]

theorem val_of_getElem? {R : Type} [Zero R] {d e : List R} {p q : Nat} (h : d[p]? = e[q]?) :
    val d p = val e q := by
  unfold val
  rw [List.getD_eq_getElem?_getD, List.getD_eq_getElem?_getD, h]

theorem butterfly_spec {R : Type} [Field R] (wr wi : R) (d : List R) (a H : Nat)
    (hH : 1 ≤ H) (hb : 2 * (a + H) + 1 < d.length) (hfit : d.length ≤ 2 ^ 64) :
    ∃ e, butterfly (2 * H) wr wi (2 * a + 1) d = Except.ok e ∧ e.length = d.length ∧
      IsButterfly wr wi d e a (a + H) ∧
      ∀ q, q / 2 ≠ a → q / 2 ≠ a + H → val e q = val d q := by
  have e1 : wrap (2 * a + 1 + 2 * H) = 2 * (a + H) + 1 := by
    rw [wrap_eq (by omega)]; ring
  have e2 : pred64 (2 * (a + H) + 1) = 2 * (a + H) := by
    rw [pred64_eq (by omega) (by omega)]; omega
  have e3 : pred64 (2 * a + 1) = 2 * a := by
    rw [pred64_eq (by omega) (by omega)]; omega
  have h1 : 2 * (a + H) < d.length := by omega
  have h3 : 2 * a < d.length := by omega
  have h4 : 2 * a + 1 < d.length := by omega
  have n1 : 2 * a ≠ 2 * (a + H) + 1 := by omega
  have n2 : 2 * a + 1 ≠ 2 * (a + H) := by omega
  have n3 : 2 * a ≠ 2 * (a + H) := by omega
  have n4 : 2 * a + 1 ≠ 2 * (a + H) + 1 := by omega
  have n5 : 2 * a + 1 ≠ 2 * a := by omega
  have n6 : 2 * (a + H) + 1 ≠ 2 * (a + H) := by omega
  have n7 : 2 * a ≠ 2 * a + 1 := by omega
  have n8 : 2 * (a + H) ≠ 2 * (a + H) + 1 := by omega
  have n9 : 2 * (a + H) ≠ 2 * a := by omega
  have n10 : 2 * (a + H) ≠ 2 * a + 1 := by omega
  have n11 : 2 * (a + H) + 1 ≠ 2 * a := by omega
  have n12 : 2 * (a + H) + 1 ≠ 2 * a + 1 := by omega
  unfold butterfly
  simp only [e1, e2, e3, readAt_val, writeAt_eq, bind, Except.bind, pure, Except.pure,
    List.length_set, hb, h1, h3, h4, val_set, n1, n2, n3, n4, n5, n6, if_false, if_true]
  refine ⟨_, rfl, by simp, ?_, ?_⟩
  · unfold IsButterfly
    simp only [val_set, List.length_set, hb, h1, h3, h4, n1, n2, n3, n4, n5, n6, n7, n8, n9,
      n10, n11, n12, if_false, if_true, and_self]
  · intro q hq1 hq2
    simp only [val_set, List.length_set, hb, h1, h3, h4]
    rw [if_neg (by omega), if_neg (by omega), if_neg (by omega), if_neg (by omega)]

theorem sample_unique (H u v r t : Nat) (hr : r < H) (ht : t < H)
    (h : u * H + r = v * H + t) : u = v ∧ r = t := by
  have hH : 0 < H := by omega
  have h1 : (u * H + r) % H = (v * H + t) % H := by rw [h]
  rw [Nat.mul_add_mod_of_lt hr, Nat.mul_add_mod_of_lt ht] at h1
  subst h1
  have h2 : u * H = v * H := by omega
  exact ⟨Nat.eq_of_mul_eq_mul_right hH h2, rfl⟩

theorem sample_ne (H c c' r r' : Nat) (hr : r < H) (hr' : r' < H) (h : c ≠ c' ∨ r ≠ r') :
    2 * (c * H) + r ≠ 2 * (c' * H) + r' ∧ 2 * (c * H) + r ≠ 2 * (c' * H) + r' + H ∧
    2 * (c * H) + r + H ≠ 2 * (c' * H) + r' ∧
    2 * (c * H) + r + H ≠ 2 * (c' * H) + r' + H := by
  have a0 : ∀ x : Nat, (2 * x) * H = 2 * (x * H) := fun x => by ring
  have a1 : ∀ x y : Nat, (2 * x + 1) * H + y = 2 * (x * H) + y + H := fun x y => by ring
  refine ⟨?_, ?_, ?_, ?_⟩
  · intro e
    have := sample_unique H (2 * c) (2 * c') r r' hr hr' (by rw [a0, a0]; exact e)
    omega
  · intro e
    have := sample_unique H (2 * c) (2 * c' + 1) r r' hr hr' (by rw [a0, a1]; exact e)
    omega
  · intro e
    have := sample_unique H (2 * c + 1) (2 * c') r r' hr hr' (by rw [a0, a1]; exact e)
    omega
  · intro e
    have := sample_unique H (2 * c + 1) (2 * c' + 1) r r' hr hr' (by rw [a1, a1]; exact e)
    omega

theorem isButterfly_congr {R : Type} [Field R] {wr wi : R} {d e d' e' : List R} {a b : Nat}
    (h : IsButterfly wr wi d e a b)
    (hd : ∀ q, q / 2 = a ∨ q / 2 = b → val d' q = val d q)
    (he : ∀ q, q / 2 = a ∨ q / 2 = b → val e' q = val e q) :
    IsButterfly wr wi d' e' a b := by
  obtain ⟨h1, h2, h3, h4⟩ := h
  unfold IsButterfly
  rw [hd (2 * a) (by omega), hd (2 * a + 1) (by omega), hd (2 * b) (by omega),
    hd (2 * b + 1) (by omega), he (2 * a) (by omega), he (2 * a + 1) (by omega),
    he (2 * b) (by omega), he (2 * b + 1) (by omega)]
  exact ⟨h1, h2, h3, h4⟩

theorem pairLoop_spec {R : Type} [Field R] (wr wi : R) (H C r n : Nat) (hH : 1 ≤ H)
    (hr : r < H) (hn : n = 4 * (C * H)) (hfit : 2 * n ≤ 2 ^ 64) (fuel c0 : Nat) (d : List R)
    (hc0 : c0 ≤ C) (hfuel : C - c0 < fuel) (hlen : d.length = n) :
    ∃ e, pairLoop n (2 * H) (4 * H) wr wi fuel (2 * (2 * (c0 * H) + r) + 1) d = Except.ok e ∧
      e.length = n ∧
      (∀ c, c0 ≤ c → c < C →
        IsButterfly wr wi d e (2 * (c * H) + r) (2 * (c * H) + r + H)) ∧
      (∀ q, (∀ c, c0 ≤ c → c < C → q / 2 ≠ 2 * (c * H) + r ∧ q / 2 ≠ 2 * (c * H) + r + H) →
        val e q = val d q) := by
  induction fuel generalizing c0 d with
  | zero => omega
  | succ f ih =>
    rw [pairLoop]
    by_cases hc : c0 < C
    · have hu : (c0 + 1) * H ≤ C * H := Nat.mul_le_mul_right H hc
      have hu1 : (c0 + 1) * H = c0 * H + H := by ring
      rw [hu1] at hu
      rw [if_pos (by omega)]
      obtain ⟨e1, he1, hl1, hb1, hf1⟩ := butterfly_spec wr wi d (2 * (c0 * H) + r) H hH
        (by omega) (by omega)
      have hw : wrap (2 * (2 * (c0 * H) + r) + 1 + 4 * H) = 2 * (2 * ((c0 + 1) * H) + r) + 1 := by
        rw [wrap_eq (by omega), hu1]; ring
      obtain ⟨e2, he2, hl2, hb2, hf2⟩ := ih (c0 + 1) e1 (by omega) (by omega) (by omega)
      refine ⟨e2, ?_, hl2, ?_, ?_⟩
      · simp only [he1, hw, bind, Except.bind]
        exact he2
      · intro c hc1 hc2
        by_cases hcc : c = c0
        · subst hcc
          refine isButterfly_congr hb1 (fun _ _ => rfl) (fun q hq => hf2 q ?_)
          intro c' h1 h2
          have := sample_ne H c c' r r hr hr (Or.inl (by omega))
          omega
        · have hne := sample_ne H c c0 r r hr hr (Or.inl hcc)
          exact isButterfly_congr (hb2 c (by omega) hc2)
            (fun q hq => (hf1 q (by omega) (by omega)).symm) (fun _ _ => rfl)
      · intro q hq
        rw [hf2 q (fun c h1 h2 => hq c (by omega) h2)]
        have := hq c0 (le_refl _) hc
        exact hf1 q this.1 this.2
    · have hu : C * H ≤ c0 * H := Nat.mul_le_mul_right H (by omega)
      rw [if_neg (by omega)]
      exact ⟨d, rfl, hlen, fun c h1 h2 => by omega, fun _ _ => rfl⟩

theorem twiddleLoop_spec {R : Type} [Field R] (wpr wpi : R) (H C n : Nat) (hH : 1 ≤ H)
    (hC : 1 ≤ C) (hn : n = 4 * (C * H)) (hfit : 2 * n ≤ 2 ^ 64) (fuel r0 : Nat) (d : List R)
    (hr0 : r0 ≤ H) (hfuel : H - r0 < fuel) (hlen : d.length = n) :
    ∃ e, twiddleLoop n (2 * H) (4 * H) wpr wpi fuel (2 * r0 + 1) (twiddle wpr wpi r0).1
        (twiddle wpr wpi r0).2 d = Except.ok e ∧
      e.length = n ∧
      (∀ r c, r0 ≤ r → r < H → c < C →
        IsButterfly (twiddle wpr wpi r).1 (twiddle wpr wpi r).2 d e
          (2 * (c * H) + r) (2 * (c * H) + r + H)) ∧
      (∀ q, (∀ r c, r0 ≤ r → r < H → c < C →
          q / 2 ≠ 2 * (c * H) + r ∧ q / 2 ≠ 2 * (c * H) + r + H) →
        val e q = val d q) := by
  have hU : 1 * H ≤ C * H := Nat.mul_le_mul_right H hC
  have hCU : C * 1 ≤ C * H := Nat.mul_le_mul_left C hH
  induction fuel generalizing r0 d with
  | zero => omega
  | succ f ih =>
    rw [twiddleLoop]
    by_cases hr : r0 < H
    · rw [if_pos (by omega)]
      have hm : 2 * r0 + 1 = 2 * (2 * (0 * H) + r0) + 1 := by simp
      obtain ⟨e1, he1, hl1, hb1, hf1⟩ := pairLoop_spec (twiddle wpr wpi r0).1
        (twiddle wpr wpi r0).2 H C r0 n hH hr hn hfit (n + 1) 0 d (by omega) (by omega) hlen
      rw [← hm] at he1
      have hw : wrap (2 * r0 + 1 + 2) = 2 * (r0 + 1) + 1 := by
        rw [wrap_eq (by omega)]; ring
      obtain ⟨e2, he2, hl2, hb2, hf2⟩ := ih (r0 + 1) e1 (by omega) (by omega) hl1
      refine ⟨e2, ?_, hl2, ?_, ?_⟩
      · simp only [he1, hw, bind, Except.bind]
        exact he2
      · intro r c hr1 hr2 hc
        by_cases hrr : r = r0
        · subst hrr
          refine isButterfly_congr (hb1 c (by omega) hc) (fun _ _ => rfl) (fun q hq => hf2 q ?_)
          intro r' c' h1 h2 h3
          have := sample_ne H c c' r r' hr h2 (Or.inr (by omega))
          omega
        · refine isButterfly_congr (hb2 r c (by omega) hr2 hc) (fun q hq => (hf1 q ?_).symm)
            (fun _ _ => rfl)
          intro c' _ h2
          have := sample_ne H c c' r r0 hr2 hr (Or.inr hrr)
          omega
      · intro q hq
        rw [hf2 q (fun r c h1 h2 h3 => hq r c (by omega) h2 h3)]
        exact hf1 q (fun c _ h2 => hq r0 c (le_refl _) hr h2)
    · rw [if_neg (by omega)]
      exact ⟨d, rfl, hlen, fun r c h1 h2 => by omega, fun _ _ => rfl⟩

theorem twiddleLoop_pass {R : Type} [Field R] (wpr wpi : R) (H C n : Nat) (hH : 1 ≤ H)
    (hC : 1 ≤ C) (hn : n = 4 * (C * H)) (hfit : 2 * n ≤ 2 ^ 64) (d : List R)
    (hlen : d.length = n) :
    ∃ e, twiddleLoop n (2 * H) (4 * H) wpr wpi (2 * H + 1) 1 1.0 0.0 d = Except.ok e ∧
      e.length = n ∧ IsPass (twiddle wpr wpi) H C d e := by
  obtain ⟨e, he, hl, hb, _⟩ := twiddleLoop_spec wpr wpi H C n hH hC hn hfit (2 * H + 1) 0 d
    (by omega) (by omega) hlen
  have h1 : (1.0 : R) = 1 := by norm_num
  have h0 : (0.0 : R) = 0 := by norm_num
  refine ⟨e, ?_, hl, fun r c hr hc => hb r c (by omega) hr hc⟩
  rw [h1, h0]
  exact he

theorem pow_split (k s : Nat) (hs : s < k) : 2 ^ (k - s - 1) * 2 ^ s * 2 = 2 ^ k := by
  rw [← pow_add, ← pow_succ]
  congr 1
  omega

theorem passLoop_spec {R : Type} [Field R] (sin : R → R) (pi : R) (k : Nat)
    (hfit : 2 * 2 ^ k < 2 ^ 64) (P : Nat → List R → Prop)
    (hstep : ∀ s d e, s < k → d.length = 2 * 2 ^ k → e.length = 2 * 2 ^ k → P s d →
      IsPass (twiddle (passWpr sin pi (2 * 2 ^ s)) (passWpi sin pi (2 * 2 ^ s))) (2 ^ s)
        (2 ^ (k - s - 1)) d e → P (s + 1) e)
    (fuel s : Nat) (d : List R) (hs : s ≤ k) (hfuel : k - s < fuel)
    (hlen : d.length = 2 * 2 ^ k) (hP : P s d) :
    ∃ e, passLoop sin pi (2 * 2 ^ k) fuel (2 * 2 ^ s) d = Except.ok e ∧
      e.length = 2 * 2 ^ k ∧ P k e := by
  have hk := k_lt_of_fit k hfit
  have hk2 : 2 ^ k ≤ 2 ^ 62 := Nat.pow_le_pow_right (by decide) (by omega)
  induction fuel generalizing s d with
  | zero => omega
  | succ f ih =>
    rw [passLoop]
    by_cases hs1 : s < k
    · have hlt : 2 ^ s < 2 ^ k := Nat.pow_lt_pow_right (by decide) hs1
      have hsplit := pow_split k s hs1
      rw [if_pos (by omega)]
      have hw : wrap ((2 * 2 ^ s) <<< 1) = 4 * 2 ^ s := by
        rw [Nat.shiftLeft_eq, wrap_eq (by omega)]; ring
      obtain ⟨e1, he1, hl1, hp1⟩ := twiddleLoop_pass (passWpr sin pi (2 * 2 ^ s))
        (passWpi sin pi (2 * 2 ^ s)) (2 ^ s) (2 ^ (k - s - 1)) (2 * 2 ^ k) (Nat.one_le_two_pow)
        (Nat.one_le_two_pow) (by omega) (by omega) d hlen
      have hp2 := hstep s d e1 hs1 hlen hl1 hP hp1
      obtain ⟨e2, he2, hl2, hp3⟩ := ih (s + 1) e1 (by omega) (by omega) hl1 hp2
      have hnext : 2 * 2 ^ (s + 1) = 4 * 2 ^ s := by ring
      rw [hnext] at he2
      unfold passWpr passWpi at he1
      refine ⟨e2, ?_, hl2, hp3⟩
      simp only [hw, he1, bind, Except.bind]
      exact he2
    · have : s = k := by omega
      subst this
      rw [if_neg (by omega)]
      exact ⟨d, rfl, hlen, hP⟩

theorem danielsonLanczos_spec {R : Type} [Field R] (sin : R → R) (pi : R) (k : Nat)
    (s : FftState R) (hlen : s.data.length = 2 * 2 ^ k) (hfit : 2 * 2 ^ k < 2 ^ 64)
    (P : Nat → List R → Prop)
    (hstep : ∀ s d e, s < k → d.length = 2 * 2 ^ k → e.length = 2 * 2 ^ k → P s d →
      IsPass (twiddle (passWpr sin pi (2 * 2 ^ s)) (passWpi sin pi (2 * 2 ^ s))) (2 ^ s)
        (2 ^ (k - s - 1)) d e → P (s + 1) e)
    (h0 : P 0 s.data) :
    ∃ e, danielsonLanczos sin pi (2 ^ k) s =
        Except.ok { data := e, intermediate_value := s.intermediate_value } ∧
      e.length = 2 * 2 ^ k ∧ P k e := by
  have hk := k_lt_of_fit k hfit
  have hn : wrap (2 ^ k <<< 1) = 2 * 2 ^ k := by
    rw [Nat.shiftLeft_eq, wrap_eq (by omega)]; ring
  obtain ⟨e, he, hl, hp⟩ := passLoop_spec sin pi k hfit P hstep 65 0 s.data (by omega)
    (by omega) hlen h0
  refine ⟨e, ?_, hl, hp⟩
  unfold danielsonLanczos
  rw [pow_zero, mul_one] at he
  simp only [hn, he, bind, Except.bind, pure, Except.pure]

theorem fourier_spec {R : Type} [Field R] (sin : R → R) (pi : R) (k : Nat)
    (s : FftState R) (hlen : s.data.length = 2 * 2 ^ k) (hfit : 2 * 2 ^ k < 2 ^ 64)
    (P : Nat → List R → Prop)
    (hstep : ∀ s d e, s < k → d.length = 2 * 2 ^ k → e.length = 2 * 2 ^ k → P s d →
      IsPass (twiddle (passWpr sin pi (2 * 2 ^ s)) (passWpi sin pi (2 * 2 ^ s))) (2 ^ s)
        (2 ^ (k - s - 1)) d e → P (s + 1) e)
    (h0 : ∀ d : List R, d.length = 2 * 2 ^ k →
      (∀ p < 2 ^ k, ∀ c < 2, d[2 * p + c]? = s.data[2 * rev k p + c]?) → P 0 d) :
    ∃ s1, fourier sin pi (2 ^ k) s = Except.ok s1 ∧ s1.data.length = 2 * 2 ^ k ∧
      P k s1.data ∧
      (s1.intermediate_value = s.intermediate_value ∨
        ∃ q : Nat, s.data[q]? = some s1.intermediate_value) := by
  obtain ⟨t, ht, htl, htv, htiv⟩ := bitReverse_spec k s hlen hfit
  obtain ⟨e, he, hel, hp⟩ := danielsonLanczos_spec sin pi k t htl hfit P hstep (h0 _ htl htv)
  refine ⟨{ data := e, intermediate_value := t.intermediate_value }, ?_, hel, hp, htiv⟩
  unfold fourier
  simp only [ht, he, bind, Except.bind]

/-! ## The transform over the reals -/

theorem cos_theta (θ : ℝ) : -2.0 * Real.sin (0.5 * θ) * Real.sin (0.5 * θ) = Real.cos θ - 1 := by
  have h : θ = 2 * (0.5 * θ) := by ring
  conv_rhs => rw [h, Real.cos_two_mul, Real.cos_sq']
  ring

theorem twiddle_real (M r : Nat) :
    twiddle (passWpr Real.sin Real.pi M) (passWpi Real.sin Real.pi M) r =
      (Real.cos (r * -(2 * Real.pi / M)), Real.sin (r * -(2 * Real.pi / M))) := by
  induction r with
  | zero => simp [twiddle]
  | succ r ih =>
    rw [twiddle, ih]
    simp only [passWpr, passWpi, cos_theta]
    have e : ((r + 1 : Nat) : ℝ) * -(2 * Real.pi / M) = r * -(2 * Real.pi / M) + -(2 * Real.pi / M) := by
      push_cast; ring
    rw [e, Real.cos_add, Real.sin_add]
    ext <;> simp <;> ring

theorem mk_cos_sin (φ : ℝ) : (⟨Real.cos φ, Real.sin φ⟩ : ℂ) = Complex.exp (φ * Complex.I) := by
  apply Complex.ext
  · rw [Complex.exp_ofReal_mul_I_re]
  · rw [Complex.exp_ofReal_mul_I_im]

theorem twiddle_exp (M r : Nat) :
    (⟨(twiddle (passWpr Real.sin Real.pi M) (passWpi Real.sin Real.pi M) r).1,
      (twiddle (passWpr Real.sin Real.pi M) (passWpi Real.sin Real.pi M) r).2⟩ : ℂ) =
      Complex.exp (-(2 * Real.pi * Complex.I / M)) ^ r := by
  rw [twiddle_real, ← Complex.exp_nat_mul]
  have e : (r : ℂ) * -(2 * Real.pi * Complex.I / M) =
      ((r * -(2 * Real.pi / M) : ℝ) : ℂ) * Complex.I := by
    push_cast; ring
  rw [e]
  exact mk_cos_sin _

theorem sample_butterfly {wr wi : ℝ} {d e : List ℝ} {a b : Nat}
    (h : IsButterfly wr wi d e a b) :
    sample e a = sample d a + (⟨wr, wi⟩ : ℂ) * sample d b ∧
    sample e b = sample d a - (⟨wr, wi⟩ : ℂ) * sample d b := by
  obtain ⟨h1, h2, h3, h4⟩ := h
  constructor
  · apply Complex.ext
    · simp [sample, h1]
    · simp [sample, h2]
  · apply Complex.ext
    · simp [sample, h3]
    · simp [sample, h4]

theorem sum_even_odd (H : Nat) (F : Nat → ℂ) :
    ∑ u in Finset.range (2 * H), F u =
      ∑ t in Finset.range H, F (2 * t) + ∑ t in Finset.range H, F (2 * t + 1) := by
  induction H with
  | zero => simp
  | succ H ih =>
    rw [show 2 * (H + 1) = 2 * H + 1 + 1 by ring, Finset.sum_range_succ, Finset.sum_range_succ,
      ih, Finset.sum_range_succ, Finset.sum_range_succ]
    ring

theorem dft_split (H q : Nat) (W1 W2 : ℂ) (hW : W2 ^ 2 = W1) (F : Nat → ℂ) :
    ∑ u in Finset.range (2 * H), F u * W2 ^ (q * u) =
      ∑ t in Finset.range H, F (2 * t) * W1 ^ (q * t) +
        W2 ^ q * ∑ t in Finset.range H, F (2 * t + 1) * W1 ^ (q * t) := by
  rw [sum_even_odd, Finset.mul_sum]
  congr 1
  · apply Finset.sum_congr rfl
    intro t _
    rw [← hW, ← pow_mul]
    congr 2
    ring
  · apply Finset.sum_congr rfl
    intro t _
    rw [← hW, ← pow_mul, mul_left_comm, ← pow_add]
    congr 2
    ring

theorem dft_split_high (H r : Nat) (W1 W2 : ℂ) (hW : W2 ^ 2 = W1) (hH : W2 ^ H = -1)
    (F : Nat → ℂ) :
    ∑ u in Finset.range (2 * H), F u * W2 ^ ((r + H) * u) =
      ∑ t in Finset.range H, F (2 * t) * W1 ^ (r * t) -
        W2 ^ r * ∑ t in Finset.range H, F (2 * t + 1) * W1 ^ (r * t) := by
  have h1 : W1 ^ H = 1 := by
    rw [← hW, ← pow_mul, mul_comm, pow_mul, hH]; norm_num
  rw [dft_split H (r + H) W1 W2 hW F, pow_add, hH]
  have e : ∀ t, W1 ^ ((r + H) * t) = W1 ^ (r * t) := by
    intro t
    rw [add_mul, pow_add, pow_mul W1 H t, h1, one_pow, mul_one]
  simp only [e]
  ring

theorem omega_sq (H : Nat) (hH : 0 < H) :
    Complex.exp (-(2 * Real.pi * Complex.I / (2 * H : Nat))) ^ 2 =
      Complex.exp (-(2 * Real.pi * Complex.I / (H : Nat))) := by
  rw [← Complex.exp_nat_mul]
  congr 1
  have : (H : ℂ) ≠ 0 := by exact_mod_cast hH.ne'
  push_cast
  field_simp
  ring

theorem omega_half (H : Nat) (hH : 0 < H) :
    Complex.exp (-(2 * Real.pi * Complex.I / (2 * H : Nat))) ^ H = -1 := by
  rw [← Complex.exp_nat_mul]
  have : (H : ℂ) ≠ 0 := by exact_mod_cast hH.ne'
  have e : (H : ℂ) * -(2 * Real.pi * Complex.I / (2 * H : Nat)) = -(Real.pi * Complex.I) := by
    push_cast
    field_simp
    ring
  rw [e, Complex.exp_neg, Complex.exp_pi_mul_I]
  norm_num

theorem rev_even (j c : Nat) : rev (j + 1) (2 * c) = rev j c := by
  have h1 : 2 * c / 2 = c := by omega
  have h2 : 2 * c % 2 = 0 := by omega
  simp [rev, h1, h2]

theorem rev_odd (j c : Nat) : rev (j + 1) (2 * c + 1) = rev j c + 2 ^ j := by
  have h1 : (2 * c + 1) / 2 = c := by omega
  have h2 : (2 * c + 1) % 2 = 1 := by omega
  simp [rev, h1, h2]

theorem passInv_step (k : Nat) (x : List ℝ) (s : Nat) (d e : List ℝ) (hs : s < k)
    (hinv : PassInv k x s d)
    (hpass : IsPass (twiddle (passWpr Real.sin Real.pi (2 * 2 ^ s))
      (passWpi Real.sin Real.pi (2 * 2 ^ s))) (2 ^ s) (2 ^ (k - s - 1)) d e) :
    PassInv k x (s + 1) e := by
  obtain ⟨j, hj⟩ : ∃ j, k - (s + 1) = j := ⟨_, rfl⟩
  have hj1 : k - s = j + 1 := by omega
  have hj2 : k - s - 1 = j := by omega
  have hpos : 0 < 2 ^ s := Nat.two_pow_pos s
  unfold PassInv at hinv ⊢
  rw [hj1] at hinv
  rw [hj2] at hpass
  rw [hj]
  have hps : 2 ^ (s + 1) = 2 * 2 ^ s := by ring
  have hpj : 2 ^ (j + 1) = 2 * 2 ^ j := by ring
  intro c q hc hq
  rw [hps]
  have hW := omega_sq (2 ^ s) hpos
  have hWh := omega_half (2 ^ s) hpos
  have hA : ∀ r, r < 2 ^ s → sample d (2 * (c * 2 ^ s) + r) =
      ∑ t in Finset.range (2 ^ s), sample x (rev j c + (2 * t) * 2 ^ j) *
        Complex.exp (-(2 * Real.pi * Complex.I / (2 ^ s : Nat))) ^ (r * t) := by
    intro r hr
    have := hinv (2 * c) r (by omega) hr
    rw [rev_even] at this
    rw [show 2 * (c * 2 ^ s) + r = 2 * c * 2 ^ s + r by ring, this]
    apply Finset.sum_congr rfl
    intro t _
    rw [hpj, show t * (2 * 2 ^ j) = 2 * t * 2 ^ j by ring]
  have hB : ∀ r, r < 2 ^ s → sample d (2 * (c * 2 ^ s) + r + 2 ^ s) =
      ∑ t in Finset.range (2 ^ s), sample x (rev j c + (2 * t + 1) * 2 ^ j) *
        Complex.exp (-(2 * Real.pi * Complex.I / (2 ^ s : Nat))) ^ (r * t) := by
    intro r hr
    have := hinv (2 * c + 1) r (by omega) hr
    rw [rev_odd] at this
    rw [show 2 * (c * 2 ^ s) + r + 2 ^ s = (2 * c + 1) * 2 ^ s + r by ring, this]
    apply Finset.sum_congr rfl
    intro t _
    rw [hpj, show rev j c + 2 ^ j + t * (2 * 2 ^ j) = rev j c + (2 * t + 1) * 2 ^ j by ring]
  by_cases hq1 : q < 2 ^ s
  · obtain ⟨h1, _⟩ := sample_butterfly (hpass q c hq1 hc)
    rw [twiddle_exp, hA q hq1, hB q hq1] at h1
    rw [show c * (2 * 2 ^ s) + q = 2 * (c * 2 ^ s) + q by ring, h1,
      dft_split (2 ^ s) q _ _ hW (fun u => sample x (rev j c + u * 2 ^ j))]
  · obtain ⟨r, hr⟩ : ∃ r, q = r + 2 ^ s := ⟨q - 2 ^ s, by omega⟩
    subst hr
    have hr1 : r < 2 ^ s := by omega
    obtain ⟨_, h2⟩ := sample_butterfly (hpass r c hr1 hc)
    rw [twiddle_exp, hA r hr1, hB r hr1] at h2
    rw [show c * (2 * 2 ^ s) + (r + 2 ^ s) = 2 * (c * 2 ^ s) + r + 2 ^ s by ring, h2,
      dft_split_high (2 ^ s) r _ _ hW hWh (fun u => sample x (rev j c + u * 2 ^ j))]

theorem passInv_zero (k : Nat) (x d : List ℝ)
    (h : ∀ p < 2 ^ k, ∀ c < 2, d[2 * p + c]? = x[2 * rev k p + c]?) : PassInv k x 0 d := by
  intro c q hc hq
  have hq0 : q = 0 := by simpa using hq
  subst hq0
  rw [Nat.sub_zero] at hc
  simp only [pow_zero, mul_one, add_zero, Finset.range_one, Finset.sum_singleton, zero_mul,
    Nat.sub_zero]
  apply Complex.ext
  · exact val_of_getElem? (h c hc 0 (by omega))
  · exact val_of_getElem? (h c hc 1 (by omega))

theorem isDft_of_passInv (k : Nat) (x d : List ℝ) (h : PassInv k x k d) :
    IsDft (2 ^ k) x d := by
  have key : ∀ j < 2 ^ k, sample d j =
      ∑ n in Finset.range (2 ^ k), sample x n *
        Complex.exp (-2 * Real.pi * Complex.I * j * n / (2 ^ k : Nat)) := by
    intro j hj
    have := h 0 j (by simp) hj
    simp only [Nat.sub_self, rev, pow_zero, mul_one, zero_mul, zero_add] at this
    rw [this]
    apply Finset.sum_congr rfl
    intro t _
    rw [← Complex.exp_nat_mul]
    congr 2
    push_cast
    ring
  intro j hj
  rw [← key j hj]
  exact ⟨rfl, rfl⟩

theorem fourier_isDft (k : Nat) (s : FftState ℝ) (hlen : s.data.length = 2 * 2 ^ k)
    (hfit : 2 * 2 ^ k < 2 ^ 64) :
    ∃ s1, fourier Real.sin Real.pi (2 ^ k) s = Except.ok s1 ∧ s1.data.length = 2 * 2 ^ k ∧
      IsDft (2 ^ k) s.data s1.data := by
  obtain ⟨s1, h1, h2, h3, _⟩ := fourier_spec Real.sin Real.pi k s hlen hfit
    (PassInv k s.data)
    (fun t d e ht _ _ hd hp => passInv_step k s.data t d e ht hd hp)
    (fun d _ hd => passInv_zero k s.data d hd)
  exact ⟨s1, h1, h2, isDft_of_passInv k s.data s1.data h3⟩

theorem getElem?_pair_ext {R : Type} (k : Nat) (d e : List R) (hd : d.length = 2 * 2 ^ k)
    (he : e.length = 2 * 2 ^ k)
    (h : ∀ p < 2 ^ k, ∀ c < 2, d[2 * p + c]? = e[2 * p + c]?) : d = e := by
  apply List.ext_getElem?
  intro i
  by_cases hi : i < 2 * 2 ^ k
  · have := h (i / 2) (by omega) (i % 2) (by omega)
    rwa [show 2 * (i / 2) + i % 2 = i by omega] at this
  · rw [List.getElem?_eq_none (by omega), List.getElem?_eq_none (by omega)]

theorem bitReverse_twice {R : Type} (k : Nat) (s : FftState R)
    (hlen : s.data.length = 2 * 2 ^ k) (hfit : 2 * 2 ^ k < 2 ^ 64) :
    ∃ s1 s2, bitReverse (2 ^ k) s = Except.ok s1 ∧ bitReverse (2 ^ k) s1 = Except.ok s2 ∧
      s2.data = s.data := by
  obtain ⟨s1, h1, hl1, hv1, _⟩ := bitReverse_spec k s hlen hfit
  obtain ⟨s2, h2, hl2, hv2, _⟩ := bitReverse_spec k s1 hl1 hfit
  refine ⟨s1, s2, h1, h2, getElem?_pair_ext k _ _ hl2 hlen ?_⟩
  intro p hp c hc
  rw [hv2 p hp c hc, hv1 _ (rev_lt k p) c hc, rev_rev k p hp]

theorem val_ext (d e : List ℝ) (hl : d.length = e.length)
    (h : ∀ i < d.length, val d i = val e i) : d = e := by
  apply List.ext_getElem hl
  intro i h1 h2
  have := h i h1
  unfold val at this
  rwa [List.getD_eq_getElem _ _ h1, List.getD_eq_getElem _ _ h2] at this

theorem omega_prim (N : Nat) (hN : N ≠ 0) :
    IsPrimitiveRoot (Complex.exp (-(2 * Real.pi * Complex.I / N))) N := by
  rw [Complex.exp_neg]
  exact (Complex.isPrimitiveRoot_exp N hN).inv

theorem omega_geom_sum (N d : Nat) (hN : N ≠ 0) :
    ∑ n in Finset.range N, (Complex.exp (-(2 * Real.pi * Complex.I / N)) ^ d) ^ n =
      if N ∣ d then (N : ℂ) else 0 := by
  have hp := omega_prim N hN
  by_cases h : N ∣ d
  · rw [if_pos h, (hp.pow_eq_one_iff_dvd d).2 h]
    simp
  · rw [if_neg h]
    have h1 : Complex.exp (-(2 * Real.pi * Complex.I / N)) ^ d ≠ 1 :=
      fun e => h ((hp.pow_eq_one_iff_dvd d).1 e)
    have h2 : (Complex.exp (-(2 * Real.pi * Complex.I / N)) ^ d) ^ N = 1 := by
      rw [← pow_mul, Nat.mul_comm, pow_mul, hp.pow_eq_one, one_pow]
    rw [geom_sum_eq h1, h2]
    simp

theorem isDft_sample (N : Nat) (x y : List ℝ) (h : IsDft N x y) (j : Nat) (hj : j < N) :
    sample y j = ∑ n in Finset.range N, sample x n *
      Complex.exp (-(2 * Real.pi * Complex.I / N)) ^ (j * n) := by
  obtain ⟨h1, h2⟩ := h j hj
  have e : ∀ n : Nat, Complex.exp (-(2 * Real.pi * Complex.I / N)) ^ (j * n) =
      Complex.exp (-2 * Real.pi * Complex.I * j * n / N) := by
    intro n
    rw [← Complex.exp_nat_mul]
    congr 1
    push_cast
    ring
  simp only [e]
  exact Complex.ext h1 h2

theorem sample_cons_cons (a b : ℝ) (d : List ℝ) (p : Nat) :
    sample (a :: b :: d) (p + 1) = sample d p := by
  apply Complex.ext
  · show val (a :: b :: d) (2 * (p + 1)) = val d (2 * p)
    simp [val, show 2 * (p + 1) = 2 * p + 1 + 1 by ring]
  · show val (a :: b :: d) (2 * (p + 1) + 1) = val d (2 * p + 1)
    simp [val, show 2 * (p + 1) + 1 = 2 * p + 1 + 1 + 1 by ring]

theorem sample_cons_zero (a b : ℝ) (d : List ℝ) : sample (a :: b :: d) 0 = ⟨a, b⟩ := by
  apply Complex.ext <;> simp [sample, val]

theorem sample_nil (p : Nat) : sample [] p = 0 := by
  apply Complex.ext <;> simp [sample, val]

theorem impulse_dft (y : List ℝ) (hl : y.length = 8)
    (h : IsDft 4 [1, 0, 0, 0, 0, 0, 0, 0] y) : y = [1, 0, 1, 0, 1, 0, 1, 0] := by
  have key : ∀ j < 4, val y (2 * j) = 1 ∧ val y (2 * j + 1) = 0 := by
    intro j hj
    have h0 : sample y j = 1 := by
      rw [isDft_sample 4 _ y h j hj]
      simp [Finset.sum_range_succ, sample_cons_cons, sample_cons_zero, sample_nil]
      apply Complex.ext <;> simp
    exact ⟨congrArg Complex.re h0, congrArg Complex.im h0⟩
  apply val_ext _ _ (by simp [hl])
  intro i hi
  rw [hl] at hi
  have k0 := key 0 (by omega)
  have k1 := key 1 (by omega)
  have k2 := key 2 (by omega)
  have k3 := key 3 (by omega)
  interval_cases i <;> simp_all [val]

theorem val_lincomb (a b : ℝ) (x y : List ℝ) (hl : x.length = y.length) (i : Nat) :
    val (lincomb a b x y) i = a * val x i + b * val y i := by
  unfold val lincomb
  by_cases hi : i < x.length
  · rw [List.getD_eq_getElem _ _ (by simp; omega), List.getD_eq_getElem _ _ hi,
      List.getD_eq_getElem _ _ (by omega)]
    simp
  · rw [List.getD_eq_default _ _ (by simp; omega), List.getD_eq_default _ _ (by omega),
      List.getD_eq_default _ _ (by omega)]
    simp

theorem sample_lincomb (a b : ℝ) (x y : List ℝ) (hl : x.length = y.length) (p : Nat) :
    sample (lincomb a b x y) p = a * sample x p + b * sample y p := by
  apply Complex.ext
  · simp [sample, val_lincomb a b x y hl]
  · simp [sample, val_lincomb a b x y hl]

theorem isDft_lincomb (N : Nat) (a b : ℝ) (x y X Y Z : List ℝ) (hl : x.length = y.length)
    (hX : IsDft N x X) (hY : IsDft N y Y) (hZ : IsDft N (lincomb a b x y) Z)
    (hlX : X.length = 2 * N) (hlY : Y.length = 2 * N) (hlZ : Z.length = 2 * N) :
    Z = lincomb a b X Y := by
  have key : ∀ j < N, sample Z j = sample (lincomb a b X Y) j := by
    intro j hj
    rw [sample_lincomb a b X Y (by omega), isDft_sample N _ Z hZ j hj,
      isDft_sample N _ X hX j hj, isDft_sample N _ Y hY j hj, Finset.mul_sum, Finset.mul_sum,
      ← Finset.sum_add_distrib]
    apply Finset.sum_congr rfl
    intro n _
    rw [sample_lincomb a b x y hl]
    ring
  apply val_ext _ _ (by simp [lincomb]; omega)
  intro i hi
  have := key (i / 2) (by omega)
  rcases Nat.mod_two_eq_zero_or_one i with h | h
  · rw [show i = 2 * (i / 2) by omega]
    exact congrArg Complex.re this
  · rw [show i = 2 * (i / 2) + 1 by omega]
    exact congrArg Complex.im this

theorem conjugate_length {R : Type} [Field R] (d : List R) :
    (conjugate d).length = d.length := by
  induction d using conjugate.induct with
  | case1 re im rest ih => simp [conjugate, ih]
  | case2 d h =>
    unfold conjugate
    split
    · exact absurd rfl (h _ _ _)
    · rfl

theorem val_conjugate (d : List ℝ) (p : Nat) :
    val (conjugate d) (2 * p) = val d (2 * p) ∧
    val (conjugate d) (2 * p + 1) = -val d (2 * p + 1) := by
  induction p generalizing d with
  | zero =>
    match d with
    | [] => simp [conjugate, val]
    | [a] => simp [conjugate, val]
    | a :: b :: rest => simp [conjugate, val]
  | succ p ih =>
    match d with
    | [] => simp [conjugate, val]
    | [a] => simp [conjugate, val]
    | a :: b :: rest =>
      have := ih rest
      simp only [val] at this ⊢
      simpa [conjugate, show 2 * (p + 1) = 2 * p + 1 + 1 by ring] using this

theorem sample_conjugate (d : List ℝ) (p : Nat) :
    sample (conjugate d) p = (starRingEnd ℂ) (sample d p) := by
  obtain ⟨h1, h2⟩ := val_conjugate d p
  apply Complex.ext
  · simpa [sample] using h1
  · simpa [sample] using h2

theorem val_scale (c : ℝ) (d : List ℝ) (i : Nat) : val (scale c d) i = c * val d i := by
  unfold val scale
  by_cases hi : i < d.length
  · rw [List.getD_eq_getElem _ _ (by simpa using hi), List.getD_eq_getElem _ _ hi]
    simp
  · rw [List.getD_eq_default _ _ (by simpa using hi), List.getD_eq_default _ _ (by omega)]
    simp

theorem sample_scale (c : ℝ) (d : List ℝ) (p : Nat) :
    sample (scale c d) p = c * sample d p := by
  apply Complex.ext
  · simp [sample, val_scale]
  · simp [sample, val_scale]

theorem conj_omega_pow (N j m : Nat) (hN : N ≠ 0) (hm : m ≤ N) :
    (starRingEnd ℂ) (Complex.exp (-(2 * Real.pi * Complex.I / N)) ^ (j * m)) =
      (Complex.exp (-(2 * Real.pi * Complex.I / N)) ^ (N - m)) ^ j := by
  have hp := omega_prim N hN
  have hne : Complex.exp (-(2 * Real.pi * Complex.I / N)) ^ (j * m) ≠ 0 :=
    pow_ne_zero _ (Complex.exp_ne_zero _)
  have h1 : (starRingEnd ℂ) (Complex.exp (-(2 * Real.pi * Complex.I / N)) ^ (j * m)) *
      Complex.exp (-(2 * Real.pi * Complex.I / N)) ^ (j * m) = 1 := by
    rw [← Complex.exp_nat_mul, ← Complex.exp_conj, ← Complex.exp_add]
    have : (starRingEnd ℂ) (((j * m : Nat) : ℂ) * -(2 * Real.pi * Complex.I / N)) +
        ((j * m : Nat) : ℂ) * -(2 * Real.pi * Complex.I / N) = 0 := by
      have h2 : (starRingEnd ℂ) (2 : ℂ) = 2 := Complex.conj_ofReal 2
      simp [Complex.conj_ofReal, h2]
      ring
    rw [this, Complex.exp_zero]
  have h2 : (Complex.exp (-(2 * Real.pi * Complex.I / N)) ^ (N - m)) ^ j *
      Complex.exp (-(2 * Real.pi * Complex.I / N)) ^ (j * m) = 1 := by
    rw [← pow_mul, ← pow_add, show (N - m) * j + j * m = N * j by
      rw [Nat.mul_comm j m, ← Nat.add_mul]; congr 1; omega, pow_mul, hp.pow_eq_one, one_pow]
  exact mul_right_cancel₀ hne (h1.trans h2.symm)

theorem dft_inversion (N : Nat) (hN : N ≠ 0) (x X Z : List ℝ) (hX : IsDft N x X)
    (hZ : IsDft N (conjugate X) Z) (m : Nat) (hm : m < N) :
    sample (conjugate (scale (1 / (N : ℝ)) Z)) m = sample x m := by
  have hNc : (N : ℂ) ≠ 0 := by exact_mod_cast hN
  rw [sample_conjugate, sample_scale, isDft_sample N _ Z hZ m hm, map_mul, map_sum,
    Complex.conj_ofReal]
  have e1 : ∀ j ∈ Finset.range N,
      (starRingEnd ℂ) (sample (conjugate X) j *
        Complex.exp (-(2 * Real.pi * Complex.I / N)) ^ (m * j)) =
      ∑ n in Finset.range N, sample x n *
        (Complex.exp (-(2 * Real.pi * Complex.I / N)) ^ (n + (N - m))) ^ j := by
    intro j hj
    rw [map_mul, sample_conjugate, Complex.conj_conj, Nat.mul_comm m j,
      conj_omega_pow N j m hN (by omega), isDft_sample N x X hX j (Finset.mem_range.1 hj),
      Finset.sum_mul]
    apply Finset.sum_congr rfl
    intro n _
    rw [mul_assoc, ← pow_mul, ← pow_mul, ← pow_add]
    congr 2
    ring
  rw [Finset.sum_congr rfl e1, Finset.sum_comm]
  simp only [← Finset.mul_sum, omega_geom_sum N _ hN]
  rw [Finset.sum_eq_single m]
  · rw [if_pos (by rw [show m + (N - m) = N by omega])]
    push_cast
    field_simp
  · intro n hn hne
    have hn' := Finset.mem_range.1 hn
    rw [if_neg, mul_zero]
    intro hdvd
    obtain ⟨c, hc⟩ := hdvd
    have : c = 1 := by
      have h1 : 0 < c := by
        rcases Nat.eq_zero_or_pos c with h | h
        · subst h; omega
        · exact h
      have h2 : c < 2 := by
        by_contra h
        have : N * 2 ≤ N * c := Nat.mul_le_mul_left N (by omega)
        omega
      omega
    subst this
    omega
  · intro h
    exact absurd (Finset.mem_range.2 hm) h

theorem round_trip (k : Nat) (s : FftState ℝ) (hlen : s.data.length = 2 * 2 ^ k)
    (hfit : 2 * 2 ^ k < 2 ^ 64) :
    ∃ s1 s2, fourier Real.sin Real.pi (2 ^ k) s = Except.ok s1 ∧
      fourier Real.sin Real.pi (2 ^ k)
        ⟨conjugate s1.data, s1.intermediate_value⟩ = Except.ok s2 ∧
      conjugate (scale (1 / ((2 ^ k : Nat) : ℝ)) s2.data) = s.data := by
  obtain ⟨s1, h1, h2, h3⟩ := fourier_isDft k s hlen hfit
  obtain ⟨s2, h4, h5, h6⟩ := fourier_isDft k ⟨conjugate s1.data, s1.intermediate_value⟩
    (by rw [conjugate_length]; exact h2) hfit
  refine ⟨s1, s2, h1, h4, ?_⟩
  have hl : (conjugate (scale (1 / ((2 ^ k : Nat) : ℝ)) s2.data)).length = s.data.length := by
    rw [conjugate_length]; simp [scale]; omega
  apply val_ext _ _ hl
  intro i hi
  have hpos : 2 ^ k ≠ 0 := (Nat.two_pow_pos k).ne'
  have := dft_inversion (2 ^ k) hpos s.data s1.data s2.data h3 h6 (i / 2) (by omega)
  rcases Nat.mod_two_eq_zero_or_one i with h | h
  · rw [show i = 2 * (i / 2) by omega]
    exact congrArg Complex.re this
  · rw [show i = 2 * (i / 2) + 1 by omega]
    exact congrArg Complex.im this

theorem sin_as_omega (n : Nat) :
    (⟨Real.sin (2 * Real.pi * n / 8), 0⟩ : ℂ) =
      ((Complex.exp (-(2 * Real.pi * Complex.I / (8 : Nat))) ^ 7) ^ n -
        Complex.exp (-(2 * Real.pi * Complex.I / (8 : Nat))) ^ n) * (-Complex.I / 2) := by
  have h7 : Complex.exp (-(2 * Real.pi * Complex.I / (8 : Nat))) ^ 7 =
      Complex.exp (2 * Real.pi * Complex.I / (8 : Nat)) := by
    rw [← Complex.exp_nat_mul]
    have e : ((7 : Nat) : ℂ) * -(2 * Real.pi * Complex.I / (8 : Nat)) =
        2 * Real.pi * Complex.I / (8 : Nat) - 2 * Real.pi * Complex.I := by
      push_cast; ring
    rw [e, Complex.exp_sub, Complex.exp_two_pi_mul_I, div_one]
  rw [h7, ← Complex.exp_nat_mul, ← Complex.exp_nat_mul]
  have e0 : (⟨Real.sin (2 * Real.pi * n / 8), 0⟩ : ℂ) =
      Complex.sin ((2 * Real.pi * n / 8 : ℝ) : ℂ) := by
    rw [← Complex.ofReal_sin]; rfl
  rw [e0, Complex.sin]
  have e1 : (n : ℂ) * (2 * Real.pi * Complex.I / (8 : Nat)) =
      ((2 * Real.pi * n / 8 : ℝ) : ℂ) * Complex.I := by
    push_cast; ring
  have e2 : (n : ℂ) * -(2 * Real.pi * Complex.I / (8 : Nat)) =
      -((2 * Real.pi * n / 8 : ℝ) : ℂ) * Complex.I := by
    push_cast; ring
  rw [e1, e2]
  ring

theorem sine_dft (y : List ℝ) (hl : y.length = 16)
    (h : IsDft 8 [Real.sin (2 * Real.pi * 0 / 8), 0, Real.sin (2 * Real.pi * 1 / 8), 0,
      Real.sin (2 * Real.pi * 2 / 8), 0, Real.sin (2 * Real.pi * 3 / 8), 0,
      Real.sin (2 * Real.pi * 4 / 8), 0, Real.sin (2 * Real.pi * 5 / 8), 0,
      Real.sin (2 * Real.pi * 6 / 8), 0, Real.sin (2 * Real.pi * 7 / 8), 0] y) :
    y = [0, 0, 0, -4, 0, 0, 0, 0, 0, 0, 0, 0, 0, 0, 0, 4] := by
  have hs : ∀ n ∈ Finset.range 8, ∀ j : Nat,
      sample [Real.sin (2 * Real.pi * 0 / 8), 0, Real.sin (2 * Real.pi * 1 / 8), 0,
        Real.sin (2 * Real.pi * 2 / 8), 0, Real.sin (2 * Real.pi * 3 / 8), 0,
        Real.sin (2 * Real.pi * 4 / 8), 0, Real.sin (2 * Real.pi * 5 / 8), 0,
        Real.sin (2 * Real.pi * 6 / 8), 0, Real.sin (2 * Real.pi * 7 / 8), 0] n *
        Complex.exp (-(2 * Real.pi * Complex.I / (8 : Nat))) ^ (j * n) =
      (-Complex.I / 2) *
        ((Complex.exp (-(2 * Real.pi * Complex.I / (8 : Nat))) ^ (7 + j)) ^ n -
         (Complex.exp (-(2 * Real.pi * Complex.I / (8 : Nat))) ^ (1 + j)) ^ n) := by
    intro n hn j
    have hn' := Finset.mem_range.1 hn
    have e : sample [Real.sin (2 * Real.pi * 0 / 8), 0, Real.sin (2 * Real.pi * 1 / 8), 0,
        Real.sin (2 * Real.pi * 2 / 8), 0, Real.sin (2 * Real.pi * 3 / 8), 0,
        Real.sin (2 * Real.pi * 4 / 8), 0, Real.sin (2 * Real.pi * 5 / 8), 0,
        Real.sin (2 * Real.pi * 6 / 8), 0, Real.sin (2 * Real.pi * 7 / 8), 0] n =
        ⟨Real.sin (2 * Real.pi * n / 8), 0⟩ := by
      interval_cases n <;> simp [sample_cons_cons, sample_cons_zero]
    rw [e, sin_as_omega n, pow_add, pow_add, mul_pow, mul_pow, pow_one,
      ← pow_mul (Complex.exp (-(2 * Real.pi * Complex.I / (8 : Nat)))) j n]
    ring
  have key : ∀ j < 8, sample y j =
      (-Complex.I / 2) * ((if 8 ∣ 7 + j then (8 : ℂ) else 0) - (if 8 ∣ 1 + j then (8 : ℂ) else 0)) := by
    intro j hj
    rw [isDft_sample 8 _ y h j hj, Finset.sum_congr rfl (fun n hn => hs n hn j),
      ← Finset.mul_sum, Finset.sum_sub_distrib, omega_geom_sum 8 _ (by decide),
      omega_geom_sum 8 _ (by decide)]
    simp
  have hI : -Complex.I / 2 * 8 = ⟨0, -4⟩ := by
    apply Complex.ext
    · simp
    · simp; norm_num
  have k0 := key 0 (by omega)
  have k1 := key 1 (by omega)
  have k2 := key 2 (by omega)
  have k3 := key 3 (by omega)
  have k4 := key 4 (by omega)
  have k5 := key 5 (by omega)
  have k6 := key 6 (by omega)
  have k7 := key 7 (by omega)
  norm_num at k0 k1 k2 k3 k4 k5 k6 k7
  rw [hI] at k1
  rw [hI] at k7
  have r : ∀ j, ∀ z : ℂ, sample y j = z → val y (2 * j) = z.re ∧ val y (2 * j + 1) = z.im :=
    fun j z hz => ⟨congrArg Complex.re hz, congrArg Complex.im hz⟩
  have r0 := r 0 _ k0
  have r1 := r 1 _ k1
  have r2 := r 2 _ k2
  have r3 := r 3 _ k3
  have r4 := r 4 _ k4
  have r5 := r 5 _ k5
  have r6 := r 6 _ k6
  have r7 := r 7 _ k7
  clear h hs key k0 k1 k2 k3 k4 k5 k6 k7 hI r
  norm_num at r0 r1 r2 r3 r4 r5 r6 r7
  apply val_ext _ _ (by simp [hl])
  intro i hi
  rw [hl] at hi
  interval_cases i <;>
    first
    | (rw [r0.1]; simp [val]) | (rw [r0.2]; simp [val]) | (rw [r1.1]; simp [val])
    | (rw [r1.2]; simp [val]) | (rw [r2.1]; simp [val]) | (rw [r2.2]; simp [val])
    | (rw [r3.1]; simp [val]) | (rw [r3.2]; simp [val]) | (rw [r4.1]; simp [val])
    | (rw [r4.2]; simp [val]) | (rw [r5.1]; simp [val]) | (rw [r5.2]; simp [val])
    | (rw [r6.1]; simp [val]) | (rw [r6.2]; simp [val]) | (rw [r7.1]; simp [val])
    | (rw [r7.2]; simp [val])

/-! ## Runs on a size that is not a power of two -/

theorem readAt_cases {R : Type} (d : List R) (p : Nat) :
    (p < d.length ∧ ∃ v, readAt d p = Except.ok v) ∨
    (d.length ≤ p ∧ readAt d p = Except.error FftError.outOfRange) := by
  by_cases h : p < d.length
  · exact Or.inl ⟨h, _, readAt_eq h⟩
  · refine Or.inr ⟨by omega, ?_⟩
    simp [readAt, List.getElem?_eq_none (by omega : d.length ≤ p)]

theorem swap_safe {R : Type} (s : FftState R) (p1 p2 : Nat) :
    swap s p1 p2 = Except.error FftError.outOfRange ∨
      ∃ t, swap s p1 p2 = Except.ok t ∧ t.data.length = s.data.length := by
  by_cases h1 : p1 < s.data.length
  · by_cases h2 : p2 < s.data.length
    · obtain ⟨t, ht, hl, _⟩ := swap_spec s p1 p2 h1 h2
      exact Or.inr ⟨t, ht, hl⟩
    · left
      simp [swap, readAt, List.getElem?_eq_none (by omega : s.data.length ≤ p2), bind,
        Except.bind]
  · left
    have h3 : readAt s.data p1 = Except.error FftError.outOfRange := by
      simp [readAt, List.getElem?_eq_none (by omega : s.data.length ≤ p1)]
    rcases readAt_cases s.data p2 with ⟨_, v, hv⟩ | ⟨_, hv⟩
    · simp [swap, hv, h3, bind, Except.bind]
    · simp [swap, hv, bind, Except.bind]

theorem swapPair_safe {R : Type} (s : FftState R) (i j : Nat) :
    swapPair s i j = Except.error FftError.outOfRange ∨
      ∃ t, swapPair s i j = Except.ok t ∧ t.data.length = s.data.length := by
  unfold swapPair
  split
  · rcases swap_safe s (pred64 j) (pred64 i) with h | ⟨t, ht, hl⟩
    · left; simp [h, bind, Except.bind]
    · rcases swap_safe t j i with h | ⟨u, hu, hl2⟩
      · left; simp [ht, h, bind, Except.bind]
      · right; exact ⟨u, by simp [ht, hu, bind, Except.bind], by omega⟩
  · exact Or.inr ⟨s, rfl, rfl⟩

theorem scanLoop_safe {R : Type} (nn : Nat) (hnn : nn < 2 ^ 63) (fuel a j : Nat)
    (s : FftState R) (ha : a ≤ nn) (hfuel : nn - a < fuel) :
    scanLoop nn (2 * nn) fuel (2 * a + 1) j s = Except.error FftError.outOfRange ∨
      ∃ t, scanLoop nn (2 * nn) fuel (2 * a + 1) j s = Except.ok t ∧
        t.data.length = s.data.length := by
  induction fuel generalizing a j s with
  | zero => omega
  | succ f ih =>
    rw [scanLoop]
    by_cases haN : a < nn
    · rw [if_pos (by omega)]
      rcases swapPair_safe s (2 * a + 1) j with h | ⟨t, ht, hl⟩
      · left; simp [h, bind, Except.bind]
      · obtain ⟨⟨m, j1⟩, hm⟩ := maskLoop_total 63 nn j hnn
        have e : wrap (2 * a + 1 + 2) = 2 * (a + 1) + 1 := by
          rw [wrap_eq (by omega)]; ring
        rcases ih (a + 1) (wrap (j1 + m)) t (by omega) (by omega) with h | ⟨u, hu, hl2⟩
        · left; simp only [ht, hm, e, bind, Except.bind]; exact h
        · right
          refine ⟨u, ?_, by omega⟩
          simp only [ht, hm, e, bind, Except.bind]; exact hu
    · rw [if_neg (by omega)]
      exact Or.inr ⟨s, rfl, rfl⟩

theorem bitReverse_safe {R : Type} (nn : Nat) (hnn : nn < 2 ^ 63) (s : FftState R) :
    bitReverse nn s = Except.error FftError.outOfRange ∨
      ∃ t, bitReverse nn s = Except.ok t ∧ t.data.length = s.data.length := by
  have hn : wrap (nn <<< 1) = 2 * nn := by
    rw [Nat.shiftLeft_eq, wrap_eq (by omega)]; ring
  unfold bitReverse
  simp only [hn]
  exact scanLoop_safe nn hnn (2 * nn + 1) 0 1 s (by omega) (by omega)

theorem readAt_out {R : Type} {d : List R} {p : Nat} (h : d.length ≤ p) :
    readAt d p = Except.error FftError.outOfRange := by
  simp [readAt, List.getElem?_eq_none h]

theorem butterfly_safe {R : Type} [Field R] (mmax : Nat) (wr wi : R) (i : Nat) (d : List R) :
    RangeOrLen d.length (butterfly mmax wr wi i d) := by
  unfold RangeOrLen butterfly
  by_cases h1 : pred64 (wrap (i + mmax)) < d.length
  · by_cases h2 : wrap (i + mmax) < d.length
    · by_cases h3 : pred64 i < d.length
      · by_cases h4 : i < d.length
        · right
          simp only [readAt_val, writeAt_eq, List.length_set, h1, h2, h3, h4, bind, Except.bind,
            pure, Except.pure]
          exact ⟨_, rfl, by simp⟩
        · left
          have h4' : d.length ≤ i := by omega
          simp only [readAt_val, writeAt_eq, readAt_out, List.length_set, h1, h2, h3, h4', bind,
            Except.bind]
      · left
        have h3' : d.length ≤ pred64 i := by omega
        simp only [readAt_val, readAt_out, h1, h2, h3', bind, Except.bind]
    · left
      have h2' : d.length ≤ wrap (i + mmax) := by omega
      simp only [readAt_val, readAt_out, h1, h2', bind, Except.bind]
  · left
    have h1' : d.length ≤ pred64 (wrap (i + mmax)) := by omega
    simp only [readAt_out, h1', bind, Except.bind]

theorem butterfly_overrun {R : Type} [Field R] (mmax : Nat) (wr wi : R) (i : Nat)
    (d : List R) (h : d.length ≤ pred64 (wrap (i + mmax))) :
    butterfly mmax wr wi i d = Except.error FftError.outOfRange := by
  unfold butterfly
  simp only [readAt_out, h, bind, Except.bind]

theorem pairLoop_safe {R : Type} [Field R] (n M K : Nat) (wr wi : R)
    (hn : n = 2 * (K * M)) (hfit : n + M ≤ 2 ^ 64) (m : Nat) (hm1 : 1 ≤ m) (hm : m < M)
    (fuel c : Nat) (d : List R) (hfuel : K - c < fuel) (hlen : d.length = n) :
    RangeOrLen n (pairLoop n M (2 * M) wr wi fuel (m + 2 * (c * M)) d) := by
  induction fuel generalizing c d with
  | zero => omega
  | succ f ih =>
    rw [pairLoop]
    by_cases hi : m + 2 * (c * M) ≤ n
    · rw [if_pos hi]
      have hc : c < K := by
        by_contra h
        have : K * M ≤ c * M := Nat.mul_le_mul_right M (by omega)
        omega
      have hu : (c + 1) * M ≤ K * M := Nat.mul_le_mul_right M hc
      have hu1 : (c + 1) * M = c * M + M := by ring
      rcases butterfly_safe M wr wi (m + 2 * (c * M)) d with h | ⟨e, he, hl⟩
      · left; simp only [h, bind, Except.bind]
      · have hw : wrap (m + 2 * (c * M) + 2 * M) = m + 2 * ((c + 1) * M) := by
          rw [wrap_eq (by omega), hu1]; ring
        have := ih (c + 1) e (by omega) (by omega)
        simp only [he, hw, bind, Except.bind]
        exact this
    · rw [if_neg hi]
      exact Or.inr ⟨d, rfl, hlen⟩

theorem twiddleLoop_safe {R : Type} [Field R] (n M K : Nat) (wpr wpi : R)
    (hn : n = 2 * (K * M)) (hfit : n + M ≤ 2 ^ 64) (hM : M < 2 ^ 63)
    (fuel m : Nat) (wr wi : R) (d : List R) (hm1 : 1 ≤ m) (hfuel : M + 1 - m < fuel)
    (hlen : d.length = n) :
    RangeOrLen n (twiddleLoop n M (2 * M) wpr wpi fuel m wr wi d) := by
  induction fuel generalizing m wr wi d with
  | zero => omega
  | succ f ih =>
    rw [twiddleLoop]
    by_cases hi : m < M
    · rw [if_pos hi]
      have hK : K * 1 ≤ K * M := Nat.mul_le_mul_left K (by omega)
      have hp := pairLoop_safe n M K wr wi hn hfit m hm1 hi (n + 1) 0 d (by omega) hlen
      rw [show m + 2 * (0 * M) = m by simp] at hp
      rcases hp with h | ⟨e, he, hl⟩
      · left; simp only [h, bind, Except.bind]
      · have := ih (wrap (m + 2)) (wr + (wr * wpr - wi * wpi)) (wi + (wi * wpr + wr * wpi)) e
          (by rw [wrap_eq (by omega)]; omega) (by rw [wrap_eq (by omega)]; omega) hl
        simp only [he, bind, Except.bind]
        exact this
    · rw [if_neg hi]
      exact Or.inr ⟨d, rfl, hlen⟩

theorem pairLoop_overrun {R : Type} [Field R] (n M Q : Nat) (wr wi : R) (hM : 1 ≤ M)
    (hn : n = 2 * (Q * M) + M) (hfit : n + 1 < 2 ^ 64) (fuel c : Nat) (d : List R)
    (hc : c ≤ Q) (hfuel : Q - c < fuel) (hlen : d.length = n) :
    pairLoop n M (2 * M) wr wi fuel (1 + 2 * (c * M)) d =
      Except.error FftError.outOfRange := by
  induction fuel generalizing c d with
  | zero => omega
  | succ f ih =>
    rw [pairLoop]
    have hu : c * M ≤ Q * M := Nat.mul_le_mul_right M hc
    rw [if_pos (by omega)]
    by_cases hcQ : c = Q
    · subst hcQ
      have hj : wrap (1 + 2 * (c * M) + M) = n + 1 := by
        rw [wrap_eq (by omega)]; omega
      rw [butterfly_overrun M wr wi _ d (by
        rw [hj, pred64_eq (by omega) (by omega)]; omega)]
      rfl
    · have hu2 : (c + 1) * M ≤ Q * M := Nat.mul_le_mul_right M (by omega)
      have hu1 : (c + 1) * M = c * M + M := by ring
      rcases butterfly_safe M wr wi (1 + 2 * (c * M)) d with h | ⟨e, he, hl⟩
      · simp only [h, bind, Except.bind]
      · have hw : wrap (1 + 2 * (c * M) + 2 * M) = 1 + 2 * ((c + 1) * M) := by
          rw [wrap_eq (by omega), hu1]; ring
        have := ih (c + 1) e (by omega) (by omega) (by omega)
        simp only [he, hw, bind, Except.bind]
        exact this

theorem passLoop_overrun {R : Type} [Field R] (sin : R → R) (pi : R) (t Q n : Nat)
    (ht : 1 ≤ t) (hQ : 1 ≤ Q) (hn : n = 2 * (Q * 2 ^ t) + 2 ^ t) (hfit : n < 2 ^ 64)
    (fuel u : Nat) (d : List R) (hu1 : 1 ≤ u) (hu : u ≤ t) (hfuel : t - u < fuel)
    (hlen : d.length = n) :
    passLoop sin pi n fuel (2 ^ u) d = Except.error FftError.outOfRange := by
  have hQt : 1 * 2 ^ t ≤ Q * 2 ^ t := Nat.mul_le_mul_right _ hQ
  have ht64 : t < 64 := by
    by_contra h
    have : 2 ^ 64 ≤ 2 ^ t := Nat.pow_le_pow_right (by decide) (by omega)
    omega
  have hfit2 : n + 2 ^ t ≤ 2 ^ 64 := by
    have e : 2 ^ (64 - t) * 2 ^ t = 2 ^ 64 := by
      rw [← pow_add]; congr 1; omega
    have e2 : n = (2 * Q + 1) * 2 ^ t := by rw [hn]; ring
    have h1 : (2 * Q + 1) * 2 ^ t < 2 ^ (64 - t) * 2 ^ t := by rw [e, ← e2]; exact hfit
    have h2 : 2 * Q + 1 < 2 ^ (64 - t) := Nat.lt_of_mul_lt_mul_right h1
    have h3 : (2 * Q + 2) * 2 ^ t ≤ 2 ^ (64 - t) * 2 ^ t := Nat.mul_le_mul_right _ (by omega)
    rw [e] at h3
    have e3 : (2 * Q + 2) * 2 ^ t = n + 2 ^ t := by rw [hn]; ring
    omega
  have hpos : 0 < 2 ^ t := Nat.two_pow_pos t
  induction fuel generalizing u d with
  | zero => omega
  | succ f ih =>
    rw [passLoop]
    have hle : 2 ^ u ≤ 2 ^ t := Nat.pow_le_pow_right (by decide) hu
    have hu2 : 2 ≤ 2 ^ u := by
      calc 2 = 2 ^ 1 := rfl
        _ ≤ 2 ^ u := Nat.pow_le_pow_right (by decide) hu1
    rw [if_pos (by omega)]
    have hw : wrap ((2 ^ u) <<< 1) = 2 * 2 ^ u := by
      rw [Nat.shiftLeft_eq, wrap_eq (by omega)]; ring
    by_cases hut : u < t
    · have hlt : 2 ^ u < 2 ^ t := Nat.pow_lt_pow_right (by decide) hut
      have hsplit := pow_split t u hut
      have hK : n = 2 * ((2 * Q + 1) * 2 ^ (t - u - 1) * 2 ^ u) := by
        rw [hn, ← hsplit]; ring
      have hs := twiddleLoop_safe n (2 ^ u) ((2 * Q + 1) * 2 ^ (t - u - 1))
        (-2.0 * sin (0.5 * -(2 * pi / ((2 ^ u : Nat) : R))) *
          sin (0.5 * -(2 * pi / ((2 ^ u : Nat) : R))))
        (sin (-(2 * pi / ((2 ^ u : Nat) : R)))) hK (by omega) (by omega) (2 ^ u + 1) 1 1.0 0.0 d
        (le_refl _) (by omega) hlen
      rcases hs with h | ⟨e, he, hl⟩
      · simp only [hw, h, bind, Except.bind]
      · have := ih (u + 1) e (by omega) (by omega) (by omega) hl
        rw [show 2 ^ (u + 1) = 2 * 2 ^ u by ring] at this
        simp only [hw, he, bind, Except.bind]
        exact this
    · have : u = t := by omega
      subst this
      have hQu : Q * 1 ≤ Q * 2 ^ u := Nat.mul_le_mul_left Q (by omega)
      have hp := pairLoop_overrun n (2 ^ u) Q (1.0 : R) 0.0 (by omega) hn (by omega) (n + 1) 0 d
        (by omega) (by omega) hlen
      rw [show 1 + 2 * (0 * 2 ^ u) = 1 by simp] at hp
      simp only [hw, twiddleLoop, if_pos (show 1 < 2 ^ u by omega), hp, bind, Except.bind]

theorem fourier_overrun {R : Type} [Field R] (sin : R → R) (pi : R) (N : Nat) (h3 : 3 ≤ N)
    (hnp : ∀ k, N ≠ 2 ^ k) (s : FftState R) (hlen : s.data.length = 2 * N)
    (hfit : 2 * N < 2 ^ 64) :
    fourier sin pi N s = Except.error FftError.outOfRange := by
  obtain ⟨a, m, hm, hN⟩ := Nat.exists_eq_two_pow_mul_odd (show N ≠ 0 by omega)
  obtain ⟨Q, hQ⟩ := hm
  have hQ1 : 1 ≤ Q := by
    rcases Nat.eq_zero_or_pos Q with h | h
    · subst h
      exact absurd (by rw [hN, hQ]; ring) (hnp a)
    · exact h
  have hn : 2 * N = 2 * (Q * 2 ^ (a + 1)) + 2 ^ (a + 1) := by
    rw [hN, hQ]; ring
  have hw : wrap (N <<< 1) = 2 * N := by
    rw [Nat.shiftLeft_eq, wrap_eq (by omega)]; ring
  unfold fourier
  rcases bitReverse_safe N (by omega) s with h | ⟨t, ht, hl⟩
  · simp only [h, bind, Except.bind]
  · have hp := passLoop_overrun sin pi (a + 1) Q (2 * N) (by omega) hQ1 hn hfit 65 1 t.data
      (le_refl _) (by omega) ?_ (by omega)
    · rw [pow_one] at hp
      simp only [ht, danielsonLanczos, hw, hp, bind, Except.bind]
    · have : a + 1 < 64 := by
        by_contra h
        have h1 : 2 ^ 64 ≤ 2 ^ (a + 1) := Nat.pow_le_pow_right (by decide) (by omega)
        have h2 : 1 * 2 ^ (a + 1) ≤ Q * 2 ^ (a + 1) := Nat.mul_le_mul_right _ hQ1
        omega
      omega

theorem danielsonLanczos_global {R : Type} [Field R] (sin : R → R) (pi : R) (nn : Nat)
    (t s1 : FftState R) (h : danielsonLanczos sin pi nn t = Except.ok s1) :
    s1.intermediate_value = t.intermediate_value := by
  unfold danielsonLanczos at h
  cases hp : passLoop sin pi (wrap (nn <<< 1)) 65 2 t.data with
  | error e => simp [hp, bind, Except.bind] at h
  | ok d =>
    simp only [hp, bind, Except.bind, pure, Except.pure] at h
    cases h
    rfl

theorem fourier_global_small {R : Type} [Field R] (sin : R → R) (pi : R) (N : Nat)
    (hN : N = 1 ∨ N = 2) (s s1 : FftState R) (h : fourier sin pi N s = Except.ok s1) :
    s1.intermediate_value = s.intermediate_value := by
  have hb : bitReverse N s = Except.ok s := by
    rcases hN with rfl | rfl <;> rfl
  unfold fourier at h
  simp only [hb, bind, Except.bind] at h
  exact danielsonLanczos_global sin pi N s s1 h

theorem six_not_pow (k : Nat) : 6 ≠ 2 ^ k := by
  intro h
  rcases Nat.lt_or_ge k 3 with h1 | h1
  · interval_cases k <;> simp at h
  · have : 2 ^ 3 ≤ 2 ^ k := Nat.pow_le_pow_right (by decide) h1
    omega

/-! ## Independence of the global scratch value -/

theorem swap_data_indep {R : Type} (s t : FftState R) (h : s.data = t.data) (p1 p2 : Nat) :
    swap s p1 p2 = swap t p1 p2 := by
  cases s with
  | mk d iv =>
    cases t with
    | mk d2 iv2 =>
      simp only at h
      subst h
      rfl

theorem swapPair_data_indep {R : Type} (s t : FftState R) (h : s.data = t.data) (i j : Nat) :
    (swapPair s i j = swapPair t i j) ∨
      (swapPair s i j = Except.ok s ∧ swapPair t i j = Except.ok t) := by
  unfold swapPair
  by_cases hij : i < j
  · left
    rw [if_pos hij, if_pos hij, swap_data_indep s t h]
  · right
    rw [if_neg hij, if_neg hij]
    exact ⟨rfl, rfl⟩

theorem scanLoop_data_indep {R : Type} (nn n fuel i j : Nat) (s t : FftState R)
    (h : s.data = t.data) :
    outputBuffer (scanLoop nn n fuel i j s) = outputBuffer (scanLoop nn n fuel i j t) := by
  induction fuel generalizing i j s t with
  | zero => rfl
  | succ f ih =>
    rw [scanLoop, scanLoop]
    by_cases hi : i < n
    · rw [if_pos hi, if_pos hi]
      rcases swapPair_data_indep s t h i j with e | ⟨e1, e2⟩
      · rw [e]
      · rw [e1, e2]
        cases hm : maskLoop 64 nn j with
        | error e => rfl
        | ok r =>
          obtain ⟨m, j1⟩ := r
          simp only [bind, Except.bind]
          exact ih _ _ s t h
    · rw [if_neg hi, if_neg hi]
      simp only [outputBuffer, h]

theorem danielsonLanczos_data_indep {R : Type} [Field R] (sin : R → R) (pi : R) (nn : Nat)
    (s t : FftState R) (h : s.data = t.data) :
    outputBuffer (danielsonLanczos sin pi nn s) = outputBuffer (danielsonLanczos sin pi nn t) := by
  unfold danielsonLanczos
  rw [h]
  cases hp : passLoop sin pi (wrap (nn <<< 1)) 65 2 t.data with
  | error e => simp only [hp, bind, Except.bind, outputBuffer]
  | ok d => simp only [hp, bind, Except.bind, pure, Except.pure, outputBuffer]

theorem fourier_data_indep {R : Type} [Field R] (sin : R → R) (pi : R) (nn : Nat)
    (s t : FftState R) (h : s.data = t.data) :
    outputBuffer (fourier sin pi nn s) = outputBuffer (fourier sin pi nn t) := by
  have hb : outputBuffer (bitReverse nn s) = outputBuffer (bitReverse nn t) :=
    scanLoop_data_indep nn _ _ 1 1 s t h
  unfold fourier
  cases h1 : bitReverse nn s with
  | error e1 =>
    cases h2 : bitReverse nn t with
    | error e2 =>
      rw [h1, h2] at hb
      simp only [outputBuffer, Except.error.injEq] at hb
      subst hb
      rfl
    | ok t2 => rw [h1, h2] at hb; simp [outputBuffer] at hb
  | ok s2 =>
    cases h2 : bitReverse nn t with
    | error e2 => rw [h1, h2] at hb; simp [outputBuffer] at hb
    | ok t2 =>
      rw [h1, h2] at hb
      simp only [outputBuffer, Except.ok.injEq] at hb
      simp only [bind, Except.bind]
      exact danielsonLanczos_data_indep sin pi nn s2 t2 hb

/-! ## Further facts for the stage-level claims -/

theorem rev_testBit (k p i : Nat) (hi : i < k) :
    (rev k p).testBit i = p.testBit (k - 1 - i) := by
  induction k generalizing p i with
  | zero => omega
  | succ k ih =>
    have e : rev (k + 1) p = 2 ^ k * (p % 2) + rev k (p / 2) := by
      rw [rev]; ring
    rw [e, Nat.testBit_mul_pow_two_add _ (rev_lt k (p / 2))]
    by_cases h : i < k
    · rw [if_pos h, ih (p / 2) i h, Nat.testBit_div_two]
      congr 1
      omega
    · have hik : i = k := by omega
      subst hik
      rw [if_neg h, show i + 1 - 1 - i = 0 by omega, Nat.sub_self, Nat.testBit_zero,
        Nat.testBit_zero, Nat.mod_mod]

theorem passLoop_succ {R : Type} [Field R] (sin : R → R) (pi : R) (n fuel mmax : Nat)
    (d : List R) :
    passLoop sin pi n (fuel + 1) mmax d =
      if mmax < n then
        (passBody sin pi n mmax d).bind (passLoop sin pi n fuel (wrap (mmax <<< 1)))
      else Except.ok d := rfl

theorem passBody_spec {R : Type} [Field R] (sin : R → R) (pi : R) (k s : Nat) (hs : s < k)
    (hfit : 2 * 2 ^ k < 2 ^ 64) (d : List R) (hlen : d.length = 2 * 2 ^ k) :
    ∃ e, passBody sin pi (2 * 2 ^ k) (2 * 2 ^ s) d = Except.ok e ∧ e.length = 2 * 2 ^ k ∧
      IsPass (twiddle (passWpr sin pi (2 * 2 ^ s)) (passWpi sin pi (2 * 2 ^ s))) (2 ^ s)
        (2 ^ (k - s - 1)) d e := by
  have hk := k_lt_of_fit k hfit
  have hk2 : 2 ^ k ≤ 2 ^ 62 := Nat.pow_le_pow_right (by decide) (by omega)
  have hlt : 2 ^ s < 2 ^ k := Nat.pow_lt_pow_right (by decide) hs
  have hsplit := pow_split k s hs
  have hw : wrap ((2 * 2 ^ s) <<< 1) = 4 * 2 ^ s := by
    rw [Nat.shiftLeft_eq, wrap_eq (by omega)]; ring
  obtain ⟨e1, he1, hl1, hp1⟩ := twiddleLoop_pass (passWpr sin pi (2 * 2 ^ s))
    (passWpi sin pi (2 * 2 ^ s)) (2 ^ s) (2 ^ (k - s - 1)) (2 * 2 ^ k) (Nat.one_le_two_pow)
    (Nat.one_le_two_pow) (by omega) (by omega) d hlen
  refine ⟨e1, ?_, hl1, hp1⟩
  unfold passWpr passWpi at he1
  unfold passBody
  simp only [hw]
  exact he1

theorem pair_unique (H M N p : Nat) (hH : 0 < H) (hM : M = 2 * H) (hMN : M ∣ N) (hp : p < N) :
    ∃! Br : Nat × Nat, M ∣ Br.1 ∧ Br.1 < N ∧ Br.2 < H ∧
      (p = Br.1 + Br.2 ∨ p = Br.1 + Br.2 + H) := by
  have hMpos : 0 < M := by omega
  have hdm := Nat.div_add_mod p M
  have hmod : p % M < M := Nat.mod_lt p hMpos
  have hBN : M * (p / M) < N := by
    obtain ⟨C, hC⟩ := hMN
    have h1 : p / M < C := by
      apply Nat.div_lt_of_lt_mul
      rw [← hC]; exact hp
    have h2 : M * (p / M + 1) ≤ M * C := Nat.mul_le_mul_left M h1
    rw [hC]
    have h3 : M * (p / M + 1) = M * (p / M) + M := by ring
    omega
  refine ⟨(M * (p / M), if p % M < H then p % M else p % M - H), ⟨Dvd.intro _ rfl, hBN, ?_, ?_⟩,
    ?_⟩
  · show (if p % M < H then p % M else p % M - H) < H
    split <;> omega
  · show p = M * (p / M) + (if p % M < H then p % M else p % M - H) ∨
      p = M * (p / M) + (if p % M < H then p % M else p % M - H) + H
    split
    · left; omega
    · right; omega
  · rintro ⟨B, r⟩ ⟨⟨c, hc⟩, _, hr, hpr⟩
    simp only at hc hr hpr
    subst hc
    have key : ∀ t, t < M → p = M * c + t → c = p / M ∧ t = p % M := by
      intro t ht hpt
      constructor
      · rw [hpt, Nat.mul_add_div hMpos, Nat.div_eq_of_lt ht, Nat.add_zero]
      · rw [hpt, Nat.mul_add_mod, Nat.mod_eq_of_lt ht]
    rcases hpr with h | h
    · obtain ⟨h1, h2⟩ := key r (by omega) h
      rw [← h1, ← h2, if_pos hr]
    · obtain ⟨h1, h2⟩ := key (r + H) (by omega) (by omega)
      rw [← h1, ← h2, if_neg (by omega)]
      simp

theorem passLoopTrace_fst {R : Type} [Field R] (sin : R → R) (pi : R) (n fuel mmax : Nat)
    (d : List R) :
    (passLoopTrace sin pi n fuel mmax d).map Prod.fst = passLoop sin pi n fuel mmax d := by
  induction fuel generalizing mmax d with
  | zero => rfl
  | succ f ih =>
    rw [passLoop_succ, passLoopTrace]
    by_cases h : mmax < n
    · rw [if_pos h, if_pos h]
      cases hb : passBody sin pi n mmax d with
      | error e => rfl
      | ok d1 =>
        simp only [bind, Except.bind]
        rw [← ih]
        cases passLoopTrace sin pi n f (wrap (mmax <<< 1)) d1 with
        | error e => rfl
        | ok r => rfl
    · rw [if_neg h, if_neg h]
      rfl

theorem passLoopTrace_spec {R : Type} [Field R] (sin : R → R) (pi : R) (k : Nat)
    (hfit : 2 * 2 ^ k < 2 ^ 64) (fuel s : Nat) (d : List R) (hs : s ≤ k)
    (hfuel : k - s < fuel) (hlen : d.length = 2 * 2 ^ k) :
    ∃ e, passLoopTrace sin pi (2 * 2 ^ k) fuel (2 * 2 ^ s) d =
        Except.ok (e, (List.range (k - s)).map (fun i => 2 ^ (s + 1 + i))) ∧
      e.length = 2 * 2 ^ k := by
  have hk := k_lt_of_fit k hfit
  have hk2 : 2 ^ k ≤ 2 ^ 62 := Nat.pow_le_pow_right (by decide) (by omega)
  induction fuel generalizing s d with
  | zero => omega
  | succ f ih =>
    rw [passLoopTrace]
    by_cases hs1 : s < k
    · have hlt : 2 ^ s < 2 ^ k := Nat.pow_lt_pow_right (by decide) hs1
      rw [if_pos (by omega)]
      have hw : wrap ((2 * 2 ^ s) <<< 1) = 2 * 2 ^ (s + 1) := by
        rw [Nat.shiftLeft_eq, wrap_eq (by omega)]; ring
      obtain ⟨e1, he1, hl1, _⟩ := passBody_spec sin pi k s hs1 hfit d hlen
      obtain ⟨e2, he2, hl2⟩ := ih (s + 1) e1 (by omega) (by omega) hl1
      have hlist : (List.range (k - s)).map (fun i => 2 ^ (s + 1 + i)) =
          (2 * 2 ^ s) :: (List.range (k - (s + 1))).map (fun i => 2 ^ (s + 1 + 1 + i)) := by
        have hks : k - s = (k - (s + 1)) + 1 := by omega
        rw [hks, List.range_succ_eq_map, List.map_cons, List.map_map]
        congr 1
        · ring
        · apply List.map_congr_left
          intro i _
          show 2 ^ (s + 1 + (i + 1)) = 2 ^ (s + 1 + 1 + i)
          congr 1
          omega
      refine ⟨e2, ?_, hl2⟩
      simp only [he1, hw, he2, hlist, bind, Except.bind, pure, Except.pure]
    · have : s = k := by omega
      subst this
      rw [if_neg (by omega), Nat.sub_self]
      exact ⟨d, rfl, hlen⟩

theorem pairLoop_ends {R : Type} [Field R] (n M K : Nat) (wr wi : R)
    (hn : n = 2 * (K * M)) (hfit : n + M ≤ 2 ^ 64) (m : Nat) (hm1 : 1 ≤ m) (hm : m < M)
    (fuel c : Nat) (d : List R) (hfuel : K - c < fuel) :
    RangeOrLen d.length (pairLoop n M (2 * M) wr wi fuel (m + 2 * (c * M)) d) := by
  induction fuel generalizing c d with
  | zero => omega
  | succ f ih =>
    rw [pairLoop]
    by_cases hi : m + 2 * (c * M) ≤ n
    · rw [if_pos hi]
      have hc : c < K := by
        by_contra h
        have : K * M ≤ c * M := Nat.mul_le_mul_right M (by omega)
        omega
      have hu : (c + 1) * M ≤ K * M := Nat.mul_le_mul_right M hc
      have hu1 : (c + 1) * M = c * M + M := by ring
      rcases butterfly_safe M wr wi (m + 2 * (c * M)) d with h | ⟨e, he, hl⟩
      · left; simp only [h, bind, Except.bind]
      · have hw : wrap (m + 2 * (c * M) + 2 * M) = m + 2 * ((c + 1) * M) := by
          rw [wrap_eq (by omega), hu1]; ring
        have := ih (c + 1) e (by omega)
        rw [hl] at this
        simp only [he, hw, bind, Except.bind]
        exact this
    · rw [if_neg hi]
      exact Or.inr ⟨d, rfl, rfl⟩

theorem twiddleLoop_ends {R : Type} [Field R] (n M K : Nat) (wpr wpi : R)
    (hn : n = 2 * (K * M)) (hfit : n + M ≤ 2 ^ 64) (hM : M < 2 ^ 63)
    (fuel m : Nat) (wr wi : R) (d : List R) (hm1 : 1 ≤ m) (hfuel : M + 1 - m < fuel) :
    RangeOrLen d.length (twiddleLoop n M (2 * M) wpr wpi fuel m wr wi d) := by
  induction fuel generalizing m wr wi d with
  | zero => omega
  | succ f ih =>
    rw [twiddleLoop]
    by_cases hi : m < M
    · rw [if_pos hi]
      have hK : K * 1 ≤ K * M := Nat.mul_le_mul_left K (by omega)
      have hp := pairLoop_ends n M K wr wi hn hfit m hm1 hi (n + 1) 0 d (by omega)
      rw [show m + 2 * (0 * M) = m by simp] at hp
      rcases hp with h | ⟨e, he, hl⟩
      · left; simp only [h, bind, Except.bind]
      · have := ih (wrap (m + 2)) (wr + (wr * wpr - wi * wpi)) (wi + (wi * wpr + wr * wpi)) e
          (by rw [wrap_eq (by omega)]; omega) (by rw [wrap_eq (by omega)]; omega)
        rw [hl] at this
        simp only [he, bind, Except.bind]
        exact this
    · rw [if_neg hi]
      exact Or.inr ⟨d, rfl, rfl⟩

theorem passLoop_ends {R : Type} [Field R] (sin : R → R) (pi : R) (k : Nat)
    (hfit : 2 * 2 ^ k < 2 ^ 64) (fuel s : Nat) (d : List R) (hs : s ≤ k)
    (hfuel : k - s < fuel) :
    RangeOrLen d.length (passLoop sin pi (2 * 2 ^ k) fuel (2 * 2 ^ s) d) := by
  have hk := k_lt_of_fit k hfit
  have hk2 : 2 ^ k ≤ 2 ^ 62 := Nat.pow_le_pow_right (by decide) (by omega)
  induction fuel generalizing s d with
  | zero => omega
  | succ f ih =>
    rw [passLoop_succ]
    by_cases hs1 : s < k
    · have hlt : 2 ^ s < 2 ^ k := Nat.pow_lt_pow_right (by decide) hs1
      have hsplit := pow_split k s hs1
      rw [if_pos (by omega)]
      have hw : wrap ((2 * 2 ^ s) <<< 1) = 2 * (2 * 2 ^ s) := by
        rw [Nat.shiftLeft_eq, wrap_eq (by omega)]; ring
      have hb : RangeOrLen d.length (passBody sin pi (2 * 2 ^ k) (2 * 2 ^ s) d) := by
        unfold passBody
        simp only [hw]
        exact twiddleLoop_ends (2 * 2 ^ k) (2 * 2 ^ s) (2 ^ (k - s - 1)) _ _
          (by rw [← hsplit]; ring) (by omega) (by omega) _ 1 _ _ d (le_refl _) (by omega)
      rcases hb with h | ⟨e, he, hl⟩
      · left; rw [h]; rfl
      · have := ih (s + 1) e (by omega) (by omega)
        rw [hl, show 2 * 2 ^ (s + 1) = 2 * (2 * 2 ^ s) by ring] at this
        rw [he, hw]
        exact this
    · have : s = k := by omega
      subst this
      rw [if_neg (by omega)]
      exact Or.inr ⟨d, rfl, rfl⟩

theorem fourier_ends {R : Type} [Field R] (sin : R → R) (pi : R) (k : Nat)
    (hfit : 2 * 2 ^ k < 2 ^ 64) (s : FftState R) :
    fourier sin pi (2 ^ k) s ≠ Except.error FftError.outOfFuel := by
  have hk := k_lt_of_fit k hfit
  have hk2 : 2 ^ k ≤ 2 ^ 62 := Nat.pow_le_pow_right (by decide) (by omega)
  have hn : wrap (2 ^ k <<< 1) = 2 * 2 ^ k := by
    rw [Nat.shiftLeft_eq, wrap_eq (by omega)]; ring
  unfold fourier
  rcases bitReverse_safe (2 ^ k) (by omega) s with h | ⟨t, ht, _⟩
  · rw [h]
    intro hc
    cases hc
  · rw [ht]
    have hp := passLoop_ends sin pi k hfit 65 0 t.data (by omega) (by omega)
    rw [pow_zero, mul_one] at hp
    show danielsonLanczos sin pi (2 ^ k) t ≠ _
    unfold danielsonLanczos
    simp only [hn]
    rcases hp with h | ⟨e, he, _⟩
    · rw [h]
      intro hc
      cases hc
    · rw [he]
      intro hc
      cases hc

theorem fourier_passes {R : Type} [Field R] (sin : R → R) (pi : R) (k : Nat)
    (hfit : 2 * 2 ^ k < 2 ^ 64) (s : FftState R) (hlen : s.data.length = 2 * 2 ^ k) :
    ∃ t e, bitReverse (2 ^ k) s = Except.ok t ∧
      passLoopTrace sin pi (2 * 2 ^ k) 65 2 t.data =
        Except.ok (e, (List.range k).map (fun i => 2 ^ (i + 1))) ∧
      fourier sin pi (2 ^ k) s = Except.ok ⟨e, t.intermediate_value⟩ := by
  have hk := k_lt_of_fit k hfit
  have hn : wrap (2 ^ k <<< 1) = 2 * 2 ^ k := by
    rw [Nat.shiftLeft_eq, wrap_eq (by omega)]; ring
  obtain ⟨t, ht, htl, _⟩ := bitReverse_spec k s hlen hfit
  obtain ⟨e, he, _⟩ := passLoopTrace_spec sin pi k hfit 65 0 t.data (by omega) (by omega) htl
  rw [pow_zero, mul_one, Nat.sub_zero] at he
  have hl : (List.range k).map (fun i => 2 ^ (0 + 1 + i)) =
      (List.range k).map (fun i => 2 ^ (i + 1)) := by
    apply List.map_congr_left
    intro i _
    show 2 ^ (0 + 1 + i) = 2 ^ (i + 1)
    congr 1
    omega
  rw [hl] at he
  refine ⟨t, e, ht, he, ?_⟩
  have hp := passLoopTrace_fst sin pi (2 * 2 ^ k) 65 2 t.data
  rw [he] at hp
  unfold fourier
  rw [ht]
  show danielsonLanczos sin pi (2 ^ k) t = _
  unfold danielsonLanczos
  simp only [hn, ← hp, Except.map, bind, Except.bind, pure, Except.pure]

theorem butterfly_two {R : Type} [Field R] (a b c d : R) :
    butterfly 2 1 0 1 [a, b, c, d] = Except.ok [a + c, b + d, a - c, b - d] := by
  simp [butterfly, readAt, writeAt, wrap, pred64, bind, Except.bind, pure, Except.pure]

theorem passBody_two {R : Type} [Field R] (sin : R → R) (pi : R) (a b c d : R) :
    passBody sin pi 4 2 [a, b, c, d] = Except.ok [a + c, b + d, a - c, b - d] := by
  have h1 : (1.0 : R) = 1 := by norm_num
  have h0 : (0.0 : R) = 0 := by norm_num
  have hw1 : wrap (2 <<< 1) = 4 := rfl
  have hw2 : wrap (1 + 4) = 5 := rfl
  have hw3 : wrap (1 + 2) = 3 := rfl
  unfold passBody
  simp only [hw1]
  rw [twiddleLoop, if_pos (by decide), pairLoop, if_pos (by decide), h1, h0, butterfly_two]
  simp only [bind, Except.bind, hw2, hw3]
  rw [pairLoop, if_neg (by decide)]
  simp only []
  rw [twiddleLoop, if_neg (by decide)]

theorem overrun_pass {R : Type} [Field R] (N : Nat) (h3 : 3 ≤ N) (hnp : ∀ k, N ≠ 2 ^ k)
    (hfit : 2 * N < 2 ^ 64) :
    ∃ mmax, (∃ t, 1 ≤ t ∧ mmax = 2 ^ t) ∧ mmax ∣ 2 * N ∧ ¬ 2 * mmax ∣ 2 * N ∧ mmax < 2 * N ∧
      (∃ c, 2 * N - mmax + 1 = 1 + c * (2 * mmax)) ∧ 2 * N - mmax + 1 ≤ 2 * N ∧
      wrap (2 * N - mmax + 1 + mmax) = 2 * N + 1 ∧ pred64 (2 * N + 1) = 2 * N ∧
      (∀ d : List R, d.length = 2 * N →
        readAt d (2 * N) = Except.error FftError.outOfRange ∧
        readAt d (2 * N + 1) = Except.error FftError.outOfRange ∧
        ∀ wr wi : R,
          butterfly mmax wr wi (2 * N - mmax + 1) d = Except.error FftError.outOfRange ∧
          pairLoop (2 * N) mmax (2 * mmax) wr wi (2 * N + 1) 1 d =
            Except.error FftError.outOfRange) := by
  obtain ⟨a, m, hm, hN⟩ := Nat.exists_eq_two_pow_mul_odd (show N ≠ 0 by omega)
  obtain ⟨Q, hQ⟩ := hm
  have hQ1 : 1 ≤ Q := by
    rcases Nat.eq_zero_or_pos Q with h | h
    · subst h
      exact absurd (by rw [hN, hQ]; ring) (hnp a)
    · exact h
  have hn : 2 * N = 2 * (Q * 2 ^ (a + 1)) + 2 ^ (a + 1) := by
    rw [hN, hQ]; ring
  have hpos : 0 < 2 ^ (a + 1) := Nat.two_pow_pos _
  have hQt : 1 * 2 ^ (a + 1) ≤ Q * 2 ^ (a + 1) := Nat.mul_le_mul_right _ hQ1
  have hQu : Q * 1 ≤ Q * 2 ^ (a + 1) := Nat.mul_le_mul_left Q (by omega)
  have hj : wrap (2 * N - 2 ^ (a + 1) + 1 + 2 ^ (a + 1)) = 2 * N + 1 := by
    rw [wrap_eq (by omega)]; omega
  have hpj : pred64 (2 * N + 1) = 2 * N := by
    rw [pred64_eq (by omega) (by omega)]; omega
  refine ⟨2 ^ (a + 1), ⟨a + 1, by omega, rfl⟩, ⟨2 * Q + 1, by rw [hn]; ring⟩, ?_, by omega,
    ⟨Q, by rw [hn]; ring_nf; omega⟩, by omega, hj, hpj, ?_⟩
  · rintro ⟨c, hc⟩
    have h1 : 2 ^ (a + 1) * (2 * c) = 2 ^ (a + 1) * (2 * Q + 1) := by
      rw [hn] at hc
      rw [← mul_assoc, Nat.mul_comm (2 ^ (a + 1)) 2, ← hc]; ring
    have h2 := Nat.eq_of_mul_eq_mul_left hpos h1
    omega
  · intro d hd
    refine ⟨readAt_out (by omega), readAt_out (by omega), fun wr wi => ⟨?_, ?_⟩⟩
    · exact butterfly_overrun _ wr wi _ d (by rw [hj, hpj]; omega)
    · have hp := pairLoop_overrun (2 * N) (2 ^ (a + 1)) Q wr wi (by omega) hn (by omega)
        (2 * N + 1) 0 d (by omega) (by omega) hd
      rwa [show 1 + 2 * (0 * 2 ^ (a + 1)) = 1 by simp] at hp

theorem twelve_pass (mmax : Nat) (ht : ∃ t, 1 ≤ t ∧ mmax = 2 ^ t) (hd : mmax ∣ 12)
    (hnd : ¬ 2 * mmax ∣ 12) : mmax = 4 := by
  obtain ⟨t, ht1, rfl⟩ := ht
  rcases Nat.lt_or_ge t 3 with h | h
  · interval_cases t
    · exact absurd (by decide) hnd
    · rfl
  · have h8 : 2 ^ 3 ∣ 2 ^ t := Nat.pow_dvd_pow 2 h
    have : 2 ^ 3 ∣ 12 := Nat.dvd_trans h8 hd
    exact absurd this (by decide)

/-! ## The rotation factors held by the loop over `m` -/

theorem twiddleLoopTrace_fst {R : Type} [Add R] [Sub R] [Mul R] (n mmax istep : Nat)
    (wpr wpi : R) (fuel m : Nat) (wr wi : R) (d : List R) :
    (twiddleLoopTrace n mmax istep wpr wpi fuel m wr wi d).map Prod.fst =
      twiddleLoop n mmax istep wpr wpi fuel m wr wi d := by
  induction fuel generalizing m wr wi d with
  | zero => rfl
  | succ f ih =>
    rw [twiddleLoop, twiddleLoopTrace]
    by_cases h : m < mmax
    · rw [if_pos h, if_pos h]
      cases hb : pairLoop n mmax istep wr wi (n + 1) m d with
      | error e => rfl
      | ok d1 =>
        simp only [bind, Except.bind]
        rw [← ih]
        cases twiddleLoopTrace n mmax istep wpr wpi f (wrap (m + 2)) (wr + (wr * wpr - wi * wpi))
          (wi + (wi * wpr + wr * wpi)) d1 with
        | error e => rfl
        | ok r => rfl
    · rw [if_neg h, if_neg h]
      rfl

theorem twiddleLoopTrace_spec {R : Type} [Field R] (wpr wpi : R) (H C n : Nat) (hH : 1 ≤ H)
    (hC : 1 ≤ C) (hn : n = 4 * (C * H)) (hfit : 2 * n ≤ 2 ^ 64) (fuel r0 : Nat) (d : List R)
    (hr0 : r0 ≤ H) (hfuel : H - r0 < fuel) (hlen : d.length = n) :
    ∃ e, twiddleLoopTrace n (2 * H) (4 * H) wpr wpi fuel (2 * r0 + 1) (twiddle wpr wpi r0).1
        (twiddle wpr wpi r0).2 d =
          Except.ok (e, (List.range (H - r0 + 1)).map (fun i => twiddle wpr wpi (r0 + i))) ∧
      e.length = n := by
  have hU : 1 * H ≤ C * H := Nat.mul_le_mul_right H hC
  have hCU : C * 1 ≤ C * H := Nat.mul_le_mul_left C hH
  induction fuel generalizing r0 d with
  | zero => omega
  | succ f ih =>
    rw [twiddleLoopTrace]
    by_cases hr : r0 < H
    · rw [if_pos (by omega)]
      have hm : 2 * r0 + 1 = 2 * (2 * (0 * H) + r0) + 1 := by simp
      obtain ⟨e1, he1, hl1, -, -⟩ := pairLoop_spec (twiddle wpr wpi r0).1
        (twiddle wpr wpi r0).2 H C r0 n hH hr hn hfit (n + 1) 0 d (by omega) (by omega) hlen
      rw [← hm] at he1
      have hw : wrap (2 * r0 + 1 + 2) = 2 * (r0 + 1) + 1 := by
        rw [wrap_eq (by omega)]; ring
      obtain ⟨e2, he2, hl2⟩ := ih (r0 + 1) e1 (by omega) (by omega) hl1
      refine ⟨e2, ?_, hl2⟩
      have hlist : (List.range (H - r0 + 1)).map (fun i => twiddle wpr wpi (r0 + i)) =
          twiddle wpr wpi r0 ::
            (List.range (H - (r0 + 1) + 1)).map (fun i => twiddle wpr wpi (r0 + 1 + i)) := by
        have h1 : H - r0 + 1 = (H - (r0 + 1) + 1) + 1 := by omega
        rw [h1, List.range_succ_eq_map, List.map_cons, List.map_map]
        refine congrArg₂ _ rfl (List.map_congr_left fun i _ => ?_)
        show twiddle wpr wpi (r0 + (i + 1)) = twiddle wpr wpi (r0 + 1 + i)
        congr 1
        omega
      have he3 : twiddleLoopTrace n (2 * H) (4 * H) wpr wpi f (2 * (r0 + 1) + 1)
          ((twiddle wpr wpi r0).1 + ((twiddle wpr wpi r0).1 * wpr - (twiddle wpr wpi r0).2 * wpi))
          ((twiddle wpr wpi r0).2 + ((twiddle wpr wpi r0).2 * wpr + (twiddle wpr wpi r0).1 * wpi))
          e1 = Except.ok (e2, (List.range (H - (r0 + 1) + 1)).map
            (fun i => twiddle wpr wpi (r0 + 1 + i))) := he2
      simp only [he1, hw, bind, Except.bind, he3, hlist]
      rfl
    · rw [if_neg (by omega)]
      have hH0 : r0 = H := by omega
      subst hH0
      refine ⟨d, ?_, hlen⟩
      rw [Nat.sub_self]
      rfl

theorem twiddle_trace_real (k s : Nat) (hs : s < k) (hfit : 2 * 2 ^ k < 2 ^ 64) (d : List ℝ)
    (hlen : d.length = 2 * 2 ^ k) :
    ∃ e, passBody Real.sin Real.pi (2 * 2 ^ k) (2 * 2 ^ s) d = Except.ok e ∧
      twiddleLoopTrace (2 * 2 ^ k) (2 * 2 ^ s) (wrap ((2 * 2 ^ s) <<< 1))
          (passWpr Real.sin Real.pi (2 * 2 ^ s)) (passWpi Real.sin Real.pi (2 * 2 ^ s))
          (2 * 2 ^ s + 1) 1 1.0 0.0 d =
        Except.ok (e, (List.range (2 ^ s + 1)).map (fun r : Nat =>
          (Real.cos (r * -(2 * Real.pi / (2 * 2 ^ s : Nat))),
            Real.sin (r * -(2 * Real.pi / (2 * 2 ^ s : Nat)))))) ∧
      IsPass (fun r : Nat => (Real.cos (r * -(2 * Real.pi / (2 * 2 ^ s : Nat))),
          Real.sin (r * -(2 * Real.pi / (2 * 2 ^ s : Nat)))))
        (2 ^ s) (2 ^ (k - s - 1)) d e := by
  have hk := k_lt_of_fit k hfit
  have hk2 : 2 ^ k ≤ 2 ^ 62 := Nat.pow_le_pow_right (by decide) (by omega)
  have hlt : 2 ^ s < 2 ^ k := Nat.pow_lt_pow_right (by decide) hs
  have hsplit := pow_split k s hs
  have hw : wrap ((2 * 2 ^ s) <<< 1) = 4 * 2 ^ s := by
    rw [Nat.shiftLeft_eq, wrap_eq (by omega)]; ring
  have h1 : (1.0 : ℝ) = 1 := by norm_num
  have h0 : (0.0 : ℝ) = 0 := by norm_num
  have hfun : twiddle (passWpr Real.sin Real.pi (2 * 2 ^ s)) (passWpi Real.sin Real.pi (2 * 2 ^ s)) =
      fun r : Nat => (Real.cos (r * -(2 * Real.pi / (2 * 2 ^ s : Nat))),
        Real.sin (r * -(2 * Real.pi / (2 * 2 ^ s : Nat)))) :=
    funext fun r => twiddle_real (2 * 2 ^ s) r
  obtain ⟨e, he, hl, hp⟩ := passBody_spec Real.sin Real.pi k s hs hfit d hlen
  obtain ⟨e1, he1, -⟩ := twiddleLoopTrace_spec (passWpr Real.sin Real.pi (2 * 2 ^ s))
    (passWpi Real.sin Real.pi (2 * 2 ^ s)) (2 ^ s) (2 ^ (k - s - 1)) (2 * 2 ^ k)
    Nat.one_le_two_pow Nat.one_le_two_pow (by omega) (by omega) (2 * 2 ^ s + 1) 0 d
    (by omega) (by omega) hlen
  have he2 : twiddleLoopTrace (2 * 2 ^ k) (2 * 2 ^ s) (wrap ((2 * 2 ^ s) <<< 1))
      (passWpr Real.sin Real.pi (2 * 2 ^ s)) (passWpi Real.sin Real.pi (2 * 2 ^ s))
      (2 * 2 ^ s + 1) 1 1.0 0.0 d =
        Except.ok (e1, (List.range (2 ^ s + 1)).map (fun r : Nat =>
          (Real.cos (r * -(2 * Real.pi / (2 * 2 ^ s : Nat))),
            Real.sin (r * -(2 * Real.pi / (2 * 2 ^ s : Nat)))))) := by
    rw [hw, h1, h0]
    rw [hfun] at he1
    simpa using he1
  have hfst := twiddleLoopTrace_fst (2 * 2 ^ k) (2 * 2 ^ s) (wrap ((2 * 2 ^ s) <<< 1))
      (passWpr Real.sin Real.pi (2 * 2 ^ s)) (passWpi Real.sin Real.pi (2 * 2 ^ s))
      (2 * 2 ^ s + 1) 1 1.0 0.0 d
  rw [he2] at hfst
  have hpb : passBody Real.sin Real.pi (2 * 2 ^ k) (2 * 2 ^ s) d = Except.ok e1 := hfst.symm
  have hee : e = e1 := by
    rw [he] at hpb
    injection hpb
  subst hee
  rw [hfun] at hp
  exact ⟨e, he, he2, hp⟩

/-! ## `N = 2` without laws of arithmetic, and with the IEEE special values -/

theorem fourier_two_raw {R : Type} [Add R] [Sub R] [Mul R] [Div R] [Neg R] [NatCast R]
    [OfScientific R] [OfNat R 2] (sin : R → R) (pi : R) (a b c d iv : R) :
    fourier sin pi 2 ⟨[a, b, c, d], iv⟩ =
      Except.ok ⟨[a + (1.0 * c - 0.0 * d), b + (1.0 * d + 0.0 * c),
        a - (1.0 * c - 0.0 * d), b - (1.0 * d + 0.0 * c)], iv⟩ := rfl

theorem Ieee.add_def (a b : Ieee) : a + b = Ieee.add a b := rfl

theorem Ieee.sub_def (a b : Ieee) : a - b = Ieee.add a (Ieee.neg b) := rfl

theorem Ieee.mul_def (a b : Ieee) : a * b = Ieee.mul a b := rfl

theorem Ieee.ofNat_def (n : Nat) : (OfNat.ofNat n : Ieee) = Ieee.fin n := rfl

theorem Ieee.zero_lit : (0.0 : Ieee) = Ieee.fin 0 := by
  have h : (0.0 : ℚ) = 0 := by norm_num
  rw [← h]
  rfl

theorem Ieee.one_lit : (1.0 : Ieee) = Ieee.fin 1 := by
  have h : (1.0 : ℚ) = 1 := by norm_num
  rw [← h]
  rfl

theorem Ieee.zero_mul_inf : (0.0 : Ieee) * Ieee.posInf = Ieee.nan := by
  simp [Ieee.zero_lit, Ieee.mul_def, Ieee.mul, Ieee.infTimes]

theorem Ieee.one_mul_inf : (1.0 : Ieee) * Ieee.posInf = Ieee.posInf := by
  simp [Ieee.one_lit, Ieee.mul_def, Ieee.mul, Ieee.infTimes]

theorem Ieee.one_mul_fin (q : ℚ) : (1.0 : Ieee) * Ieee.fin q = Ieee.fin q := by
  simp [Ieee.one_lit, Ieee.mul_def, Ieee.mul]

theorem Ieee.zero_mul_fin (q : ℚ) : (0.0 : Ieee) * Ieee.fin q = Ieee.fin 0 := by
  simp [Ieee.zero_lit, Ieee.mul_def, Ieee.mul]

/-- In `double` arithmetic with the special values, `fourier` for `N = 2` still returns
`[a + c, b + d, a - c, b - d]` whenever the second sample `(c, d)` is finite. -/
theorem fourier_two_finite (sin : Ieee → Ieee) (pi : Ieee) (a b iv : Ieee) (c d : ℚ) :
    fourier sin pi 2 ⟨[a, b, Ieee.fin c, Ieee.fin d], iv⟩ =
      Except.ok ⟨[a + Ieee.fin c, b + Ieee.fin d, a - Ieee.fin c, b - Ieee.fin d], iv⟩ := by
  rw [fourier_two_raw]
  simp [Ieee.one_mul_fin, Ieee.zero_mul_fin, Ieee.add_def, Ieee.sub_def, Ieee.add, Ieee.neg]

/-! # The claims -/

/-- C1: for `N = 2 ^ k` and a buffer of exactly `2 * N` reals (a C array, so of fewer than
`2 ^ 64` elements), `fourier` over exact real arithmetic returns, and leaves in
`buffer[2j], buffer[2j+1]` the real and imaginary parts of
`X[j] = Σ_{n<N} x[n] * exp(-2 π i j n / N)` for every `j < N`, where
`x[n] = buffer_in[2n] + i buffer_in[2n+1]`. -/
theorem fourier_computes_dft (k N : Nat) (hN : N = 2 ^ k) (s : FftState ℝ)
    (hlen : s.data.length = 2 * N) (hfit : s.data.length < 2 ^ 64) :
    ∃ s1, fourier Real.sin Real.pi N s = Except.ok s1 ∧ s1.data.length = 2 * N ∧
      IsDft N s.data s1.data := by
  subst hN
  exact fourier_isDft k s hlen (by omega)

theorem fourier_computes_dft_witness :
    ∃ s1, fourier Real.sin Real.pi 2 ⟨[1, 2, 3, 4], 0⟩ = Except.ok s1 ∧
      s1.data.length = 2 * 2 ∧ IsDft 2 [1, 2, 3, 4] s1.data :=
  fourier_computes_dft 1 2 (by norm_num) ⟨[1, 2, 3, 4], 0⟩ (by simp) (by simp)

/-- C2: for `N = 1` and every 2-element buffer `[a, b]`, `fourier` returns the buffer
unchanged (and leaves the global scratch value as it was). -/
theorem fourier_one_identity {R : Type} [Field R] (sin : R → R) (pi : R) (a b iv : R) :
    fourier sin pi 1 ⟨[a, b], iv⟩ = Except.ok ⟨[a, b], iv⟩ := by
  simp [fourier, bitReverse, scanLoop, swapPair, maskLoop, danielsonLanczos, passLoop, wrap,
    bind, Except.bind, pure, Except.pure]

/-- C3: for `N = 4` and the impulse buffer `[1,0, 0,0, 0,0, 0,0]`, `fourier` over exact real
arithmetic produces the buffer `[1,0, 1,0, 1,0, 1,0]`. -/
theorem fourier_impulse_four (iv : ℝ) :
    ∃ s1, fourier Real.sin Real.pi 4 ⟨[1, 0, 0, 0, 0, 0, 0, 0], iv⟩ = Except.ok s1 ∧
      s1.data = [1, 0, 1, 0, 1, 0, 1, 0] := by
  obtain ⟨s1, h1, h2, h3⟩ := fourier_isDft 2 ⟨[1, 0, 0, 0, 0, 0, 0, 0], iv⟩ rfl (by norm_num)
  exact ⟨s1, h1, impulse_dft s1.data h2 h3⟩

/-- C4: `fourier` is linear over exact real arithmetic: for `N = 2 ^ k`, real scalars `a`,
`b` and buffers `x`, `y` of exactly `2 * N` reals (C arrays, so of fewer than `2 ^ 64`
elements), the three runs return and `fourier(a*x + b*y, N)` equals
`a*fourier(x, N) + b*fourier(y, N)` element by element. -/
theorem fourier_linear (k N : Nat) (hN : N = 2 ^ k) (a b : ℝ) (x y : List ℝ)
    (hx : x.length = 2 * N) (hy : y.length = 2 * N) (hfit : x.length < 2 ^ 64)
    (ivx ivy ivz : ℝ) :
    ∃ sx sy sz, fourier Real.sin Real.pi N ⟨x, ivx⟩ = Except.ok sx ∧
      fourier Real.sin Real.pi N ⟨y, ivy⟩ = Except.ok sy ∧
      fourier Real.sin Real.pi N ⟨lincomb a b x y, ivz⟩ = Except.ok sz ∧
      sz.data = lincomb a b sx.data sy.data := by
  subst hN
  have hfit2 : 2 * 2 ^ k < 2 ^ 64 := by omega
  obtain ⟨sx, h1, h2, h3⟩ := fourier_isDft k ⟨x, ivx⟩ hx hfit2
  obtain ⟨sy, h4, h5, h6⟩ := fourier_isDft k ⟨y, ivy⟩ hy hfit2
  obtain ⟨sz, h7, h8, h9⟩ := fourier_isDft k ⟨lincomb a b x y, ivz⟩
    (by simp [lincomb]; omega) hfit2
  exact ⟨sx, sy, sz, h1, h4, h7,
    isDft_lincomb (2 ^ k) a b x y sx.data sy.data sz.data (by omega) h3 h6 h9 h2 h5 h8⟩

theorem fourier_linear_witness :
    ∃ sx sy sz, fourier Real.sin Real.pi 2 ⟨[1, 2, 3, 4], 0⟩ = Except.ok sx ∧
      fourier Real.sin Real.pi 2 ⟨[5, 6, 7, 8], 0⟩ = Except.ok sy ∧
      fourier Real.sin Real.pi 2 ⟨lincomb 2 3 [1, 2, 3, 4] [5, 6, 7, 8], 0⟩ = Except.ok sz ∧
      sz.data = lincomb 2 3 sx.data sy.data :=
  fourier_linear 1 2 (by norm_num) 2 3 [1, 2, 3, 4] [5, 6, 7, 8] (by simp) (by simp)
    (by simp) 0 0 0

/-- C5: round trip over exact real arithmetic. For `N = 2 ^ k` and every buffer of exactly
`2 * N` reals (a C array, so of fewer than `2 ^ 64` elements) - in particular every buffer
whose imaginary parts are all zero - applying `fourier`, negating every imaginary part,
applying `fourier` again, multiplying every element by `1/N` and negating every imaginary
part again gives back the original buffer. -/
theorem fourier_round_trip (k N : Nat) (hN : N = 2 ^ k) (s : FftState ℝ)
    (hlen : s.data.length = 2 * N) (hfit : s.data.length < 2 ^ 64) :
    ∃ s1 s2, fourier Real.sin Real.pi N s = Except.ok s1 ∧
      fourier Real.sin Real.pi N ⟨conjugate s1.data, s1.intermediate_value⟩ = Except.ok s2 ∧
      conjugate (scale (1 / (N : ℝ)) s2.data) = s.data := by
  subst hN
  exact round_trip k s hlen (by omega)

theorem fourier_round_trip_witness :
    ∃ s1 s2, fourier Real.sin Real.pi 2 ⟨[1, 0, 3, 0], 0⟩ = Except.ok s1 ∧
      fourier Real.sin Real.pi 2 ⟨conjugate s1.data, s1.intermediate_value⟩ = Except.ok s2 ∧
      conjugate (scale (1 / ((2 : Nat) : ℝ)) s2.data) = [1, 0, 3, 0] :=
  fourier_round_trip 1 2 (by norm_num) ⟨[1, 0, 3, 0], 0⟩ (by simp) (by simp)

/-- C6: for `N = 8` and the input `x[n] = sin(2 π n / 8)` with all imaginary parts zero,
`fourier` over exact real arithmetic returns the spectrum that is zero at every index in
`{0, 2, 3, 4, 5, 6}`, `-4i` at index `1` and `+4i` at the mirror index `7`. -/
theorem fourier_sine_eight (iv : ℝ) :
    ∃ s1, fourier Real.sin Real.pi 8
        ⟨[Real.sin (2 * Real.pi * 0 / 8), 0, Real.sin (2 * Real.pi * 1 / 8), 0,
          Real.sin (2 * Real.pi * 2 / 8), 0, Real.sin (2 * Real.pi * 3 / 8), 0,
          Real.sin (2 * Real.pi * 4 / 8), 0, Real.sin (2 * Real.pi * 5 / 8), 0,
          Real.sin (2 * Real.pi * 6 / 8), 0, Real.sin (2 * Real.pi * 7 / 8), 0], iv⟩ =
        Except.ok s1 ∧
      s1.data = [0, 0, 0, -4, 0, 0, 0, 0, 0, 0, 0, 0, 0, 0, 0, 4] := by
  obtain ⟨s1, h1, h2, h3⟩ := fourier_isDft 3
    ⟨[Real.sin (2 * Real.pi * 0 / 8), 0, Real.sin (2 * Real.pi * 1 / 8), 0,
      Real.sin (2 * Real.pi * 2 / 8), 0, Real.sin (2 * Real.pi * 3 / 8), 0,
      Real.sin (2 * Real.pi * 4 / 8), 0, Real.sin (2 * Real.pi * 5 / 8), 0,
      Real.sin (2 * Real.pi * 6 / 8), 0, Real.sin (2 * Real.pi * 7 / 8), 0], iv⟩ rfl
    (by norm_num)
  exact ⟨s1, h1, sine_dft s1.data h2 h3⟩

/-- C7, counterexample: `N = 0` is not a power of two, and `fourier` called with `N = 0`
on the empty buffer reports no failure: it returns the buffer. -/
theorem fourier_zero_not_rejected :
    (∀ k, (0 : Nat) ≠ 2 ^ k) ∧
      fourier Real.sin Real.pi 0 ⟨[], 0⟩ = Except.ok ⟨[], 0⟩ :=
  ⟨fun k h => absurd h.symm (Nat.two_pow_pos k).ne', rfl⟩

/-- C7, amended: `fourier` does not check `N`. For every `N` that is not a power of two and
every buffer of exactly `2 * N` elements (a C array, so of fewer than `2 ^ 64` elements):
when `N = 0` the call returns the (empty) buffer unchanged, and otherwise (`N ≥ 3`) the run
returns no buffer because it ends at an access outside the buffer, which is the embedding's
`outOfRange` and undefined behaviour in the C code (not a validation of `N`). -/
theorem fourier_invalid_size {R : Type} [Field R] (sin : R → R) (pi : R) (N : Nat)
    (hnp : ∀ k, N ≠ 2 ^ k) (s : FftState R) (hlen : s.data.length = 2 * N)
    (hfit : s.data.length < 2 ^ 64) :
    (N = 0 ∧ fourier sin pi N s = Except.ok s) ∨
      (3 ≤ N ∧ fourier sin pi N s = Except.error FftError.outOfRange) := by
  rcases Nat.lt_or_ge N 3 with h | h
  · left
    have h0 : N = 0 := by
      have h1 := hnp 0
      have h2 := hnp 1
      simp only [pow_zero, pow_one] at h1 h2
      omega
    subst h0
    exact ⟨rfl, rfl⟩
  · exact Or.inr ⟨h, fourier_overrun sin pi N h hnp s hlen (by omega)⟩

theorem fourier_invalid_size_witness :
    ((6 : Nat) = 0 ∧
        fourier (fun x : ℚ => x) 3 6 ⟨[1, 2, 3, 4, 5, 6, 7, 8, 9, 10, 11, 12], 0⟩ =
          Except.ok ⟨[1, 2, 3, 4, 5, 6, 7, 8, 9, 10, 11, 12], 0⟩) ∨
      (3 ≤ 6 ∧
        fourier (fun x : ℚ => x) 3 6 ⟨[1, 2, 3, 4, 5, 6, 7, 8, 9, 10, 11, 12], 0⟩ =
          Except.error FftError.outOfRange) :=
  fourier_invalid_size (fun x : ℚ => x) 3 6 six_not_pow
    ⟨[1, 2, 3, 4, 5, 6, 7, 8, 9, 10, 11, 12], 0⟩ (by decide) (by decide)

/-- C8: on valid input (`N = 2 ^ k`, a buffer of exactly `2 * N` elements, a C array and so
of fewer than `2 ^ 64` elements) the run never reaches an out-of-range access and never runs
out of fuel: `fourier` returns a buffer, and the returned buffer again has `2 * N`
elements. -/
theorem fourier_succeeds {R : Type} [Field R] (sin : R → R) (pi : R) (k N : Nat)
    (hN : N = 2 ^ k) (s : FftState R) (hlen : s.data.length = 2 * N)
    (hfit : s.data.length < 2 ^ 64) :
    ∃ s1, fourier sin pi N s = Except.ok s1 ∧ s1.data.length = 2 * N := by
  subst hN
  obtain ⟨s1, h1, h2, _, _⟩ := fourier_spec sin pi k s hlen (by omega) (fun _ _ => True)
    (fun _ _ _ _ _ _ _ _ => trivial) (fun _ _ _ => trivial)
  exact ⟨s1, h1, h2⟩

theorem fourier_succeeds_witness :
    ∃ s1, fourier (fun x : ℚ => x) 3 4 ⟨[1, 2, 3, 4, 5, 6, 7, 8], 0⟩ = Except.ok s1 ∧
      s1.data.length = 2 * 4 :=
  fourier_succeeds (fun x : ℚ => x) 3 2 4 (by decide) ⟨[1, 2, 3, 4, 5, 6, 7, 8], 0⟩
    (by decide) (by decide)

/-- C9, counterexample: for `N = 4`, the buffer `[1, 2, 3, 4, 5, 6, 7, 8]` and the global
`intermediate_value = 0` before the call, the global holds `4` after the call. -/
theorem fourier_changes_global :
    ∃ s1, fourier Real.sin Real.pi 4 ⟨[1, 2, 3, 4, 5, 6, 7, 8], 0⟩ = Except.ok s1 ∧
      s1.intermediate_value = 4 ∧ s1.intermediate_value ≠ 0 := by
  have hb : bitReverse 4 (⟨[1, 2, 3, 4, 5, 6, 7, 8], 0⟩ : FftState ℝ) =
      Except.ok ⟨[1, 2, 5, 6, 3, 4, 7, 8], 4⟩ := rfl
  obtain ⟨s1, h1, _⟩ := fourier_isDft 2 ⟨[1, 2, 3, 4, 5, 6, 7, 8], 0⟩ rfl (by norm_num)
  have h2 : fourier Real.sin Real.pi 4 ⟨[1, 2, 3, 4, 5, 6, 7, 8], 0⟩ = Except.ok s1 := h1
  refine ⟨s1, h2, ?_⟩
  unfold fourier at h2
  simp only [hb, bind, Except.bind] at h2
  have h3 := danielsonLanczos_global _ _ _ _ _ h2
  simp only at h3
  rw [h3]
  norm_num

/-- C9, amended: on the explicit state (buffer, global `intermediate_value`), for `N = 2 ^ k`
and every buffer of exactly `2 * N` elements (a C array, so of fewer than `2 ^ 64` elements),
`fourier` returns and the global holds afterwards either its value from before the call or
an element of the input buffer (`swap` stores the element it moves there); it keeps its value
when `N` is `1` or `2`, where no swap is performed. -/
theorem fourier_global_effect {R : Type} [Field R] (sin : R → R) (pi : R) (k N : Nat)
    (hN : N = 2 ^ k) (s : FftState R) (hlen : s.data.length = 2 * N)
    (hfit : s.data.length < 2 ^ 64) :
    ∃ s1, fourier sin pi N s = Except.ok s1 ∧
      (s1.intermediate_value = s.intermediate_value ∨
        ∃ q : Nat, s.data[q]? = some s1.intermediate_value) ∧
      (N ≤ 2 → s1.intermediate_value = s.intermediate_value) := by
  subst hN
  obtain ⟨s1, h1, _, _, h2⟩ := fourier_spec sin pi k s hlen (by omega) (fun _ _ => True)
    (fun _ _ _ _ _ _ _ _ => trivial) (fun _ _ _ => trivial)
  refine ⟨s1, h1, h2, fun hle => fourier_global_small sin pi (2 ^ k) ?_ s s1 h1⟩
  rcases Nat.lt_or_ge k 2 with h | h
  · interval_cases k
    · left; rfl
    · right; rfl
  · have : 2 ^ 2 ≤ 2 ^ k := Nat.pow_le_pow_right (by decide) h
    omega

theorem fourier_global_effect_witness :
    ∃ s1, fourier (fun x : ℚ => x) 3 4 ⟨[1, 2, 3, 4, 5, 6, 7, 8], 0⟩ = Except.ok s1 ∧
      (s1.intermediate_value = 0 ∨
        ∃ q : Nat, ([1, 2, 3, 4, 5, 6, 7, 8] : List ℚ)[q]? = some s1.intermediate_value) ∧
      (4 ≤ 2 → s1.intermediate_value = 0) :=
  fourier_global_effect (fun x : ℚ => x) 3 2 4 (by decide) ⟨[1, 2, 3, 4, 5, 6, 7, 8], 0⟩
    (by decide) (by decide)

/-- C10: the bit-reversal stage (the first loop alone) is an involution on the buffer: for
`N = 2 ^ k` and a buffer of exactly `2 * N` elements (a C array, so of fewer than `2 ^ 64`
elements), running the stage twice gives back the original buffer. -/
theorem bitReverse_involution {R : Type} (k N : Nat) (hN : N = 2 ^ k) (s : FftState R)
    (hlen : s.data.length = 2 * N) (hfit : s.data.length < 2 ^ 64) :
    ∃ s1 s2, bitReverse N s = Except.ok s1 ∧ bitReverse N s1 = Except.ok s2 ∧
      s2.data = s.data := by
  subst hN
  exact bitReverse_twice k s hlen (by omega)

theorem bitReverse_involution_witness :
    ∃ s1 s2, bitReverse 4 (⟨[0, 1, 2, 3, 4, 5, 6, 7], 9⟩ : FftState Nat) = Except.ok s1 ∧
      bitReverse 4 s1 = Except.ok s2 ∧ s2.data = [0, 1, 2, 3, 4, 5, 6, 7] :=
  bitReverse_involution 2 4 (by decide) ⟨[0, 1, 2, 3, 4, 5, 6, 7], 9⟩ (by decide) (by decide)

/-- C11: `fourier` carries no state across calls: for every `N` and every buffer, two runs
that start from the same buffer but from different values of the global scratch
`intermediate_value` end the same way and return the same output buffer, so the output is a
function of the buffer and `N` only. -/
theorem fourier_stateless {R : Type} [Field R] (sin : R → R) (pi : R) (N : Nat)
    (d : List R) (iv1 iv2 : R) :
    outputBuffer (fourier sin pi N ⟨d, iv1⟩) = outputBuffer (fourier sin pi N ⟨d, iv2⟩) :=
  fourier_data_indep sin pi N ⟨d, iv1⟩ ⟨d, iv2⟩ rfl

/-- C12: the bit-reversal stage computes the bit-reversal permutation: for `N = 2 ^ k` and a
buffer of exactly `2 * N` elements (a C array, so of fewer than `2 ^ 64` elements), the
first loop returns, and for every `p < N` the complex sample at position `p` (its real and
its imaginary part) is the input sample at position `rev k p`, where `rev k p < N` is the
number whose bit `i` is bit `k - 1 - i` of `p` for every `i < k`. -/
theorem bitReverse_permutes {R : Type} (k N : Nat) (hN : N = 2 ^ k) (s : FftState R)
    (hlen : s.data.length = 2 * N) (hfit : s.data.length < 2 ^ 64) :
    ∃ s1, bitReverse N s = Except.ok s1 ∧ s1.data.length = 2 * N ∧
      ∀ p < N, rev k p < N ∧ (∀ i < k, (rev k p).testBit i = p.testBit (k - 1 - i)) ∧
        s1.data[2 * p]? = s.data[2 * rev k p]? ∧
        s1.data[2 * p + 1]? = s.data[2 * rev k p + 1]? := by
  subst hN
  obtain ⟨s1, h1, h2, h3, _⟩ := bitReverse_spec k s hlen (by omega)
  exact ⟨s1, h1, h2, fun p hp => ⟨rev_lt k p, fun i hi => rev_testBit k p i hi,
    h3 p hp 0 (by omega), h3 p hp 1 (by omega)⟩⟩

theorem bitReverse_permutes_witness :
    ∃ s1, bitReverse 4 (⟨[0, 1, 2, 3, 4, 5, 6, 7], 9⟩ : FftState Nat) = Except.ok s1 ∧
      s1.data.length = 2 * 4 ∧
      ∀ p < 4, rev 2 p < 4 ∧ (∀ i < 2, (rev 2 p).testBit i = p.testBit (2 - 1 - i)) ∧
        s1.data[2 * p]? = ([0, 1, 2, 3, 4, 5, 6, 7] : List Nat)[2 * rev 2 p]? ∧
        s1.data[2 * p + 1]? = ([0, 1, 2, 3, 4, 5, 6, 7] : List Nat)[2 * rev 2 p + 1]? :=
  bitReverse_permutes 2 4 (by decide) ⟨[0, 1, 2, 3, 4, 5, 6, 7], 9⟩ (by decide) (by decide)

/-- C13: one butterfly pass is the Danielson-Lanczos combine. For `N = 2 ^ k`, a pass with
`mmax = M = 2 ^ (s + 1) ≤ N` on a buffer of exactly `2 * N` reals (a C array, so of fewer
than `2 ^ 64` elements) returns, and for every block start `B < N` that is a multiple of `M`
and every offset `r < M / 2`, with `a` the old sample `B + r`, `b` the old sample
`B + r + M / 2` and `w = exp(-2 π i r / M)`, it leaves `a + w * b` at sample `B + r` and
`a - w * b` at sample `B + r + M / 2`; every sample `p < N` belongs to exactly one such
pair. -/
theorem pass_danielson_lanczos (k s N M : Nat) (hN : N = 2 ^ k) (hM : M = 2 ^ (s + 1))
    (hs : s < k) (d : List ℝ) (hlen : d.length = 2 * N) (hfit : d.length < 2 ^ 64) :
    ∃ e, passBody Real.sin Real.pi (2 * N) M d = Except.ok e ∧ e.length = 2 * N ∧
      (∀ B r, M ∣ B → B < N → r < M / 2 →
        sample e (B + r) = sample d (B + r) +
          Complex.exp (-2 * Real.pi * Complex.I * r / M) * sample d (B + r + M / 2) ∧
        sample e (B + r + M / 2) = sample d (B + r) -
          Complex.exp (-2 * Real.pi * Complex.I * r / M) * sample d (B + r + M / 2)) ∧
      (∀ p < N, ∃! Br : Nat × Nat, M ∣ Br.1 ∧ Br.1 < N ∧ Br.2 < M / 2 ∧
        (p = Br.1 + Br.2 ∨ p = Br.1 + Br.2 + M / 2)) := by
  have hM2 : M = 2 * 2 ^ s := by rw [hM]; ring
  subst hN
  subst hM2
  have hhalf : 2 * 2 ^ s / 2 = 2 ^ s := by omega
  have hpos : 0 < 2 ^ s := Nat.two_pow_pos s
  have hsplit := pow_split k s hs
  obtain ⟨e, he, hl, hp⟩ := passBody_spec Real.sin Real.pi k s hs (by omega) d hlen
  refine ⟨e, he, hl, ?_, ?_⟩
  · intro B r hB hBN hr
    rw [hhalf] at hr ⊢
    obtain ⟨c, hc⟩ := hB
    have hcC : c < 2 ^ (k - s - 1) := by
      by_contra h
      have h1 : 2 ^ (k - s - 1) * 2 ^ s ≤ c * 2 ^ s := Nat.mul_le_mul_right _ (by omega)
      have h2 : B = 2 * (c * 2 ^ s) := by rw [hc]; ring
      omega
    have hb := sample_butterfly (hp r c hr hcC)
    rw [twiddle_exp] at hb
    have hw : Complex.exp (-(2 * Real.pi * Complex.I / ((2 * 2 ^ s : Nat) : ℂ))) ^ r =
        Complex.exp (-2 * Real.pi * Complex.I * r / ((2 * 2 ^ s : Nat) : ℂ)) := by
      rw [← Complex.exp_nat_mul]
      congr 1
      ring
    rw [hw] at hb
    rw [show B + r = 2 * (c * 2 ^ s) + r by rw [hc]; ring]
    exact hb
  · intro p hp
    rw [hhalf]
    exact pair_unique (2 ^ s) (2 * 2 ^ s) (2 ^ k) p hpos rfl
      ⟨2 ^ (k - s - 1), by rw [← hsplit]; ring⟩ hp

theorem pass_danielson_lanczos_witness :
    ∃ e, passBody Real.sin Real.pi (2 * 2) 2 [1, 2, 3, 4] = Except.ok e ∧ e.length = 2 * 2 ∧
      (∀ B r, 2 ∣ B → B < 2 → r < 2 / 2 →
        sample e (B + r) = sample [1, 2, 3, 4] (B + r) +
          Complex.exp (-2 * Real.pi * Complex.I * r / (2 : Nat)) *
            sample [1, 2, 3, 4] (B + r + 2 / 2) ∧
        sample e (B + r + 2 / 2) = sample [1, 2, 3, 4] (B + r) -
          Complex.exp (-2 * Real.pi * Complex.I * r / (2 : Nat)) *
            sample [1, 2, 3, 4] (B + r + 2 / 2)) ∧
      (∀ p < 2, ∃! Br : Nat × Nat, 2 ∣ Br.1 ∧ Br.1 < 2 ∧ Br.2 < 2 / 2 ∧
        (p = Br.1 + Br.2 ∨ p = Br.1 + Br.2 + 2 / 2)) :=
  pass_danielson_lanczos 1 0 2 2 (by norm_num) (by norm_num) (by norm_num) [1, 2, 3, 4]
    (by simp) (by simp)

/-- C14: the twiddle recurrence is exact over the reals. In the pass with a given `mmax`,
with `theta = -(2 π / mmax)`, the coefficients the code computes are
`wpr = -2 sin(theta / 2) ^ 2` and `wpi = sin(theta)`, and after `r` rounds of the update
`(wr, wi) := (wr + wr*wpr - wi*wpi, wi + wi*wpr + wr_old*wpi)` from `(1, 0)` the pair
`(wr, wi)` is `(cos(r theta), sin(r theta))`, that is `w = exp(-2 π i r / mmax)`, for every
`r`. These are the values the loop of `fourier` holds: for `N = 2 ^ k`, the pass with
`mmax = M = 2 ^ (s + 1) ≤ N` on a buffer of exactly `2 * N` reals (a C array, so of fewer
than `2 ^ 64` elements) is the loop over `m` run with these `wpr`, `wpi` from
`wr = 1.0, wi = 0.0`; it returns, the pairs `(wr, wi)` it holds at its successive loop
heads are `(cos(r theta), sin(r theta))` for `r = 0, ..., M / 2`, and its butterflies with
offset `r` are computed with `(wr, wi) = (cos(r theta), sin(r theta))`. -/
theorem twiddle_recurrence_exact (k s N M : Nat) (hN : N = 2 ^ k) (hM : M = 2 ^ (s + 1))
    (hs : s < k) (d : List ℝ) (hlen : d.length = 2 * N) (hfit : d.length < 2 ^ 64) :
    (∀ mmax r : Nat,
      passWpr Real.sin Real.pi mmax = -2 * Real.sin (-(2 * Real.pi / mmax) / 2) ^ 2 ∧
      passWpi Real.sin Real.pi mmax = Real.sin (-(2 * Real.pi / mmax)) ∧
      twiddle (passWpr Real.sin Real.pi mmax) (passWpi Real.sin Real.pi mmax) r =
        (Real.cos (r * -(2 * Real.pi / mmax)), Real.sin (r * -(2 * Real.pi / mmax))) ∧
      (⟨(twiddle (passWpr Real.sin Real.pi mmax) (passWpi Real.sin Real.pi mmax) r).1,
        (twiddle (passWpr Real.sin Real.pi mmax) (passWpi Real.sin Real.pi mmax) r).2⟩ : ℂ) =
        Complex.exp (-2 * Real.pi * Complex.I * r / mmax)) ∧
    passBody Real.sin Real.pi (2 * N) M d =
      twiddleLoop (2 * N) M (wrap (M <<< 1)) (passWpr Real.sin Real.pi M)
        (passWpi Real.sin Real.pi M) (M + 1) 1 1.0 0.0 d ∧
    (twiddleLoopTrace (2 * N) M (wrap (M <<< 1)) (passWpr Real.sin Real.pi M)
        (passWpi Real.sin Real.pi M) (M + 1) 1 1.0 0.0 d).map Prod.fst =
      passBody Real.sin Real.pi (2 * N) M d ∧
    ∃ e, passBody Real.sin Real.pi (2 * N) M d = Except.ok e ∧
      twiddleLoopTrace (2 * N) M (wrap (M <<< 1)) (passWpr Real.sin Real.pi M)
          (passWpi Real.sin Real.pi M) (M + 1) 1 1.0 0.0 d =
        Except.ok (e, (List.range (M / 2 + 1)).map (fun r : Nat =>
          (Real.cos (r * -(2 * Real.pi / M)), Real.sin (r * -(2 * Real.pi / M))))) ∧
      IsPass (fun r : Nat =>
          (Real.cos (r * -(2 * Real.pi / M)), Real.sin (r * -(2 * Real.pi / M))))
        (M / 2) (N / M) d e := by
  refine ⟨fun mmax r => ⟨?_, rfl, twiddle_real mmax r, ?_⟩, rfl,
    twiddleLoopTrace_fst _ _ _ _ _ _ _ _ _ _, ?_⟩
  · unfold passWpr
    have h : (0.5 : ℝ) * -(2 * Real.pi / mmax) = -(2 * Real.pi / mmax) / 2 := by
      norm_num
      ring
    rw [h]
    norm_num
    ring
  · rw [twiddle_exp, ← Complex.exp_nat_mul]
    congr 1
    ring
  · have hM2 : M = 2 * 2 ^ s := by rw [hM]; ring
    subst hN
    subst hM2
    have hhalf : 2 * 2 ^ s / 2 = 2 ^ s := by omega
    have hdiv : 2 ^ k / (2 * 2 ^ s) = 2 ^ (k - s - 1) := by
      have hsplit := pow_split k s hs
      have hpos : 0 < 2 * 2 ^ s := by positivity
      apply Nat.div_eq_of_eq_mul_left hpos
      rw [← hsplit]
      ring
    rw [hhalf, hdiv]
    exact twiddle_trace_real k s hs (by omega) d hlen

theorem twiddle_recurrence_exact_witness :
    (∀ mmax r : Nat,
      passWpr Real.sin Real.pi mmax = -2 * Real.sin (-(2 * Real.pi / mmax) / 2) ^ 2 ∧
      passWpi Real.sin Real.pi mmax = Real.sin (-(2 * Real.pi / mmax)) ∧
      twiddle (passWpr Real.sin Real.pi mmax) (passWpi Real.sin Real.pi mmax) r =
        (Real.cos (r * -(2 * Real.pi / mmax)), Real.sin (r * -(2 * Real.pi / mmax))) ∧
      (⟨(twiddle (passWpr Real.sin Real.pi mmax) (passWpi Real.sin Real.pi mmax) r).1,
        (twiddle (passWpr Real.sin Real.pi mmax) (passWpi Real.sin Real.pi mmax) r).2⟩ : ℂ) =
        Complex.exp (-2 * Real.pi * Complex.I * r / mmax)) ∧
    passBody Real.sin Real.pi (2 * 4) 4 [1, 2, 3, 4, 5, 6, 7, 8] =
      twiddleLoop (2 * 4) 4 (wrap (4 <<< 1)) (passWpr Real.sin Real.pi 4)
        (passWpi Real.sin Real.pi 4) (4 + 1) 1 1.0 0.0 [1, 2, 3, 4, 5, 6, 7, 8] ∧
    (twiddleLoopTrace (2 * 4) 4 (wrap (4 <<< 1)) (passWpr Real.sin Real.pi 4)
        (passWpi Real.sin Real.pi 4) (4 + 1) 1 1.0 0.0 [1, 2, 3, 4, 5, 6, 7, 8]).map Prod.fst =
      passBody Real.sin Real.pi (2 * 4) 4 [1, 2, 3, 4, 5, 6, 7, 8] ∧
    ∃ e, passBody Real.sin Real.pi (2 * 4) 4 [1, 2, 3, 4, 5, 6, 7, 8] = Except.ok e ∧
      twiddleLoopTrace (2 * 4) 4 (wrap (4 <<< 1)) (passWpr Real.sin Real.pi 4)
          (passWpi Real.sin Real.pi 4) (4 + 1) 1 1.0 0.0 [1, 2, 3, 4, 5, 6, 7, 8] =
        Except.ok (e, (List.range (4 / 2 + 1)).map (fun r : Nat =>
          (Real.cos (r * -(2 * Real.pi / (4 : Nat))), Real.sin (r * -(2 * Real.pi / (4 : Nat)))))) ∧
      IsPass (fun r : Nat =>
          (Real.cos (r * -(2 * Real.pi / (4 : Nat))), Real.sin (r * -(2 * Real.pi / (4 : Nat)))))
        (4 / 2) (4 / 4) [1, 2, 3, 4, 5, 6, 7, 8] e :=
  twiddle_recurrence_exact 2 1 4 4 (by norm_num) (by norm_num) (by norm_num)
    [1, 2, 3, 4, 5, 6, 7, 8] (by simp) (by simp)

/-- C15: `fourier` runs to completion. For `N = 2 ^ k` with `2 * N < 2 ^ 64` no run of the
embedding, on any buffer, runs out of fuel (every loop ends); and on a buffer of exactly
`2 * N` elements the call returns, the butterfly stage executing exactly `k` passes, with
`mmax = 2, 4, ..., N` in this order. -/
theorem fourier_terminates {R : Type} [Field R] (sin : R → R) (pi : R) (k N : Nat)
    (hN : N = 2 ^ k) (hfit : 2 * N < 2 ^ 64) :
    (∀ s : FftState R, fourier sin pi N s ≠ Except.error FftError.outOfFuel) ∧
    (∀ s : FftState R, s.data.length = 2 * N →
      ∃ t e, bitReverse N s = Except.ok t ∧
        passLoopTrace sin pi (2 * N) 65 2 t.data =
          Except.ok (e, (List.range k).map (fun i => 2 ^ (i + 1))) ∧
        fourier sin pi N s = Except.ok ⟨e, t.intermediate_value⟩) := by
  subst hN
  exact ⟨fun s => fourier_ends sin pi k hfit s, fun s hs => fourier_passes sin pi k hfit s hs⟩

theorem fourier_terminates_witness :
    (∀ s : FftState ℚ, fourier (fun x => x) 3 4 s ≠ Except.error FftError.outOfFuel) ∧
    (∀ s : FftState ℚ, s.data.length = 2 * 4 →
      ∃ t e, bitReverse 4 s = Except.ok t ∧
        passLoopTrace (fun x => x) 3 (2 * 4) 65 2 t.data =
          Except.ok (e, (List.range 2).map (fun i => 2 ^ (i + 1))) ∧
        fourier (fun x => x) 3 4 s = Except.ok ⟨e, t.intermediate_value⟩) :=
  fourier_terminates (fun x : ℚ => x) 3 2 4 (by decide) (by decide)

/-- C16: for every `N ≥ 3` that is not a power of two and every buffer of exactly `2 * N`
elements (a C array, so of fewer than `2 ^ 64` elements), the run ends at an access outside
the buffer: `fourier` returns the out-of-range error. With `mmax` the largest power of two
dividing `2 * N`, the pass with this `mmax` is entered (`mmax < 2 * N`), the index
`i = 2 * N - mmax + 1` lies on the path of its first pair loop (`i = 1 + c * istep`,
`i ≤ n`), there `j = i + mmax = 2 * N + 1`, and the reads of `data[j-1] = data[2N]` and
`data[j] = data[2N+1]` are outside the buffer, so this butterfly, and the pair loop from
`i = 1`, end in the out-of-range error whenever they are reached; for `N = 6` this `mmax`
is `4`. -/
theorem fourier_reads_past_end {R : Type} [Field R] (sin : R → R) (pi : R) (N : Nat)
    (h3 : 3 ≤ N) (hnp : ∀ k, N ≠ 2 ^ k) (s : FftState R) (hlen : s.data.length = 2 * N)
    (hfit : s.data.length < 2 ^ 64) :
    fourier sin pi N s = Except.error FftError.outOfRange ∧
    ∃ mmax, (∃ t, 1 ≤ t ∧ mmax = 2 ^ t) ∧ mmax ∣ 2 * N ∧ ¬ 2 * mmax ∣ 2 * N ∧ mmax < 2 * N ∧
      (∃ c, 2 * N - mmax + 1 = 1 + c * (2 * mmax)) ∧ 2 * N - mmax + 1 ≤ 2 * N ∧
      wrap (2 * N - mmax + 1 + mmax) = 2 * N + 1 ∧ pred64 (2 * N + 1) = 2 * N ∧
      (∀ d : List R, d.length = 2 * N →
        readAt d (2 * N) = Except.error FftError.outOfRange ∧
        readAt d (2 * N + 1) = Except.error FftError.outOfRange ∧
        ∀ wr wi : R,
          butterfly mmax wr wi (2 * N - mmax + 1) d = Except.error FftError.outOfRange ∧
          pairLoop (2 * N) mmax (2 * mmax) wr wi (2 * N + 1) 1 d =
            Except.error FftError.outOfRange) ∧
      (N = 6 → mmax = 4) := by
  refine ⟨fourier_overrun sin pi N h3 hnp s hlen (by omega), ?_⟩
  obtain ⟨mmax, h1, h2, h4, h5, h6, h7, h8, h9, h10⟩ :=
    overrun_pass (R := R) N h3 hnp (by omega)
  refine ⟨mmax, h1, h2, h4, h5, h6, h7, h8, h9, h10, ?_⟩
  intro h
  subst h
  exact twelve_pass mmax h1 h2 h4

theorem fourier_reads_past_end_witness :
    fourier (fun x : ℚ => x) 3 6 ⟨[1, 2, 3, 4, 5, 6, 7, 8, 9, 10, 11, 12], 0⟩ =
      Except.error FftError.outOfRange ∧
    ∃ mmax, (∃ t, 1 ≤ t ∧ mmax = 2 ^ t) ∧ mmax ∣ 2 * 6 ∧ ¬ 2 * mmax ∣ 2 * 6 ∧ mmax < 2 * 6 ∧
      (∃ c, 2 * 6 - mmax + 1 = 1 + c * (2 * mmax)) ∧ 2 * 6 - mmax + 1 ≤ 2 * 6 ∧
      wrap (2 * 6 - mmax + 1 + mmax) = 2 * 6 + 1 ∧ pred64 (2 * 6 + 1) = 2 * 6 ∧
      (∀ d : List ℚ, d.length = 2 * 6 →
        readAt d (2 * 6) = Except.error FftError.outOfRange ∧
        readAt d (2 * 6 + 1) = Except.error FftError.outOfRange ∧
        ∀ wr wi : ℚ,
          butterfly mmax wr wi (2 * 6 - mmax + 1) d = Except.error FftError.outOfRange ∧
          pairLoop (2 * 6) mmax (2 * mmax) wr wi (2 * 6 + 1) 1 d =
            Except.error FftError.outOfRange) ∧
      (6 = 6 → mmax = 4) :=
  fourier_reads_past_end (fun x : ℚ => x) 3 6 (by decide) six_not_pow
    ⟨[1, 2, 3, 4, 5, 6, 7, 8, 9, 10, 11, 12], 0⟩ (by decide) (by decide)

/-- C17, counterexample: in `double` arithmetic with the IEEE 754 special values, the
claim fails for `N = 2` on the buffer `[1, 2, 3, +inf]`. The butterfly with `wr = 1.0`,
`wi = 0.0` computes `tempr = 1.0*3 - 0.0*inf`, and `0.0*inf` is NaN, so `fourier` returns
`[NaN, +inf, NaN, -inf]`, whatever `sin` and `M_PI` are, and not
`[1 + 3, 2 + inf, 1 - 3, 2 - inf] = [4, +inf, -2, -inf]`. -/
theorem fourier_two_infinite :
    (∀ (sin : Ieee → Ieee) (pi : Ieee),
      fourier sin pi 2 ⟨[1, 2, 3, Ieee.posInf], 0⟩ =
        Except.ok ⟨[Ieee.nan, Ieee.posInf, Ieee.nan, Ieee.negInf], 0⟩) ∧
    ([Ieee.nan, Ieee.posInf, Ieee.nan, Ieee.negInf] : List Ieee) ≠
      [1 + 3, 2 + Ieee.posInf, 1 - 3, 2 - Ieee.posInf] := by
  refine ⟨fun sin pi => ?_, by simp [Ieee.add_def, Ieee.ofNat_def, Ieee.add]⟩
  rw [fourier_two_raw]
  simp [Ieee.ofNat_def, Ieee.one_mul_fin, Ieee.zero_mul_inf, Ieee.one_mul_inf, Ieee.zero_mul_fin,
    Ieee.add_def, Ieee.sub_def, Ieee.add, Ieee.neg]

/-- C17, amended: for `N = 2` and every 4-element buffer `[a, b, c, d]` over exact
arithmetic (the elements of any field, in particular the reals), `fourier` performs no swap
(the reindexing stage returns the buffer and the global unchanged), its butterfly stage is
one pass (`mmax = 2`) consisting of one butterfly with `w = 1` (`wr = 1`, `wi = 0`), and it
returns exactly `[a + c, b + d, a - c, b - d]`. -/
theorem fourier_two {R : Type} [Field R] (sin : R → R) (pi : R) (a b c d iv : R) :
    bitReverse 2 ⟨[a, b, c, d], iv⟩ = Except.ok ⟨[a, b, c, d], iv⟩ ∧
    passBody sin pi 4 2 [a, b, c, d] = butterfly 2 1 0 1 [a, b, c, d] ∧
    passLoopTrace sin pi 4 65 2 [a, b, c, d] =
      Except.ok ([a + c, b + d, a - c, b - d], [2]) ∧
    fourier sin pi 2 ⟨[a, b, c, d], iv⟩ = Except.ok ⟨[a + c, b + d, a - c, b - d], iv⟩ := by
  have hb : bitReverse 2 (⟨[a, b, c, d], iv⟩ : FftState R) = Except.ok ⟨[a, b, c, d], iv⟩ := rfl
  have hp := passBody_two sin pi a b c d
  have hw : wrap (2 <<< 1) = 4 := rfl
  have ht : passLoopTrace sin pi 4 65 2 [a, b, c, d] =
      Except.ok ([a + c, b + d, a - c, b - d], [2]) := by
    rw [passLoopTrace, if_pos (by decide), hp]
    simp only [bind, Except.bind, hw]
    rw [passLoopTrace, if_neg (by decide)]
    rfl
  refine ⟨hb, by rw [hp, butterfly_two], ht, ?_⟩
  have hl := passLoopTrace_fst sin pi 4 65 2 [a, b, c, d]
  rw [ht] at hl
  unfold fourier
  rw [hb]
  show danielsonLanczos sin pi 2 ⟨[a, b, c, d], iv⟩ = _
  unfold danielsonLanczos
  simp only [hw, ← hl, Except.map, bind, Except.bind, pure, Except.pure]

/-- C18: for `N = 0`, `fourier` touches no buffer element and returns with the buffer and
the global `intermediate_value` unchanged, whatever the buffer is (also the empty one, on
which any access would fail): the scan loop is not entered (`1 < 0` is false), so no swap
happens, and the butterfly loop is not entered (`0 > 2` is false), so no pass is
executed. -/
theorem fourier_zero {R : Type} [Field R] (sin : R → R) (pi : R) (s : FftState R) :
    bitReverse 0 s = Except.ok s ∧
    passLoopTrace sin pi 0 65 2 s.data = Except.ok (s.data, []) ∧
    fourier sin pi 0 s = Except.ok s :=
  ⟨rfl, rfl, rfl⟩

end Fft
